import Mathlib

/-!
Verification of the `procset.rs` interval-set library.

This file gives a shallow embedding of `src/libinterval_set/interval_set.rs`
into Lean.  All `u32` arithmetic of the source is modelled on `Nat` with the
wrapping (mod `2^32`) behaviour of release-mode Rust made explicit; operations
that can panic in the source (`Interval::new` on an invalid range, `unwrap`,
indexing, the `"Deal with it braw"` arms of the merge sweep) are modelled with
`Option`, `none` standing for an aborted call.

The second part of the file states and proves (or refutes) the claims of the
natural-language specification.
-/

namespace ProcSet

/-- `2^32`, the modulus of `u32` arithmetic. -/
def U32MOD : Nat := 4294967296

/-- `u32::MAX`. -/
def U32MAX : Nat := 4294967295

/-- Wrapping `u32` increment: models Rust `x + 1` on `u32` in release mode. -/
def wAdd1 (x : Nat) : Nat := (x + 1) % U32MOD

/-- Wrapping `u32` decrement: models Rust `x - 1` on `u32` (for `x < 2^32`). -/
def wSub1 (x : Nat) : Nat := (x + U32MAX) % U32MOD

/-- Wrapping `u32` subtraction `a - b` (for `a, b < 2^32`). -/
def wSub (a b : Nat) : Nat := (a + (U32MOD - b % U32MOD)) % U32MOD

/-- `struct Interval(u32, u32)`: an inclusive range `[lo, hi]`. -/
structure Interval where
  lo : Nat
  hi : Nat
deriving DecidableEq, Repr

/-- `Interval::is_valid`. -/
def Interval.isValid (i : Interval) : Bool := decide (i.lo ≤ i.hi)

/-- `Interval::new`: panics (here `none`) when `lo > hi`. -/
def Interval.new (lo hi : Nat) : Option Interval :=
  if lo ≤ hi then some ⟨lo, hi⟩ else none

/-- `Interval::whole()`: the full representable domain `[0, u32::MAX]`. -/
def Interval.whole : Interval := ⟨0, U32MAX⟩

/-- `Interval::range_size()`: `self.1 - self.0 + 1` in `u32` arithmetic. -/
def Interval.range_size (i : Interval) : Nat := (wSub i.hi i.lo + 1) % U32MOD

/-- `Interval::get_inf`. -/
def Interval.get_inf (i : Interval) : Nat := i.lo

/-- `Interval::get_sup`. -/
def Interval.get_sup (i : Interval) : Nat := i.hi

/-- `Interval::as_tuple`. -/
def Interval.as_tuple (i : Interval) : Nat × Nat := (i.lo, i.hi)

/-- `struct IntervalSet { intervals: Vec<Interval> }`. -/
structure IntervalSet where
  intervals : List Interval
deriving DecidableEq, Repr

/-- `IntervalSet::empty()`. -/
def IntervalSet.empty : IntervalSet := ⟨[]⟩

/-- `IntervalSet::is_empty()`. -/
def IntervalSet.is_empty (s : IntervalSet) : Bool := s.intervals.length == 0

/-- The order `#[derive(PartialOrd, Ord)]` puts on `Interval(u32, u32)`:
lexicographic on the pair `(lo, hi)`.  `Vec::sort` sorts ascending by it. -/
def intvLe (a b : Interval) : Prop := a.lo < b.lo ∨ (a.lo = b.lo ∧ a.hi ≤ b.hi)

instance : DecidableRel intvLe := fun a b =>
  inferInstanceAs (Decidable (a.lo < b.lo ∨ (a.lo = b.lo ∧ a.hi ≤ b.hi)))

instance : IsTotal Interval intvLe :=
  ⟨fun a b => by unfold intvLe; omega⟩

instance : IsTrans Interval intvLe :=
  ⟨fun a b c => by unfold intvLe; omega⟩

instance : IsAntisymm Interval intvLe :=
  ⟨fun a b h1 h2 => by
    unfold intvLe at h1 h2
    have hlo : a.lo = b.lo := by omega
    have hhi : a.hi = b.hi := by omega
    cases a; cases b; simp_all⟩

/-- The loop of `IntervalSet::insert`: walks the (cloned) interval list with the
running candidate bounds, returning the intervals kept by `continue`, the final
candidate bounds, and the tail kept by `break`.  The gap tests `newinf > intv.1 + 1`
and `newsup + 1 < intv.0` use wrapping `u32` increments. -/
def insertLoop : Nat → Nat → List Interval → List Interval × Nat × Nat × List Interval
  | newinf, newsup, [] => ([], newinf, newsup, [])
  | newinf, newsup, intv :: rest =>
    if wAdd1 intv.hi < newinf then
      match insertLoop newinf newsup rest with
      | (kept, a, b, r) => (intv :: kept, a, b, r)
    else if wAdd1 newsup < intv.lo then
      ([], newinf, newsup, intv :: rest)
    else
      insertLoop (min newinf intv.lo) (max newsup intv.hi) rest

/-- `IntervalSet::insert`: removes every interval overlapping or touching the
candidate, pushes the absorbed interval (constructed with the checked
`Interval::new`, hence the `Option`) and re-sorts. -/
def IntervalSet.insert (s : IntervalSet) (e : Interval) : Option IntervalSet :=
  match insertLoop e.lo e.hi s.intervals with
  | (kept, newinf, newsup, rest) =>
    (Interval.new newinf newsup).map fun iv =>
      ⟨List.insertionSort intvLe (kept ++ rest ++ [iv])⟩

/-- `ToIntervalSet for Interval`. -/
def intervalToIntervalSet (i : Interval) : Option IntervalSet :=
  if i.isValid then some ⟨[i]⟩ else none

/-- Loop of `ToIntervalSet for Vec<Interval>`: validity check then `insert`. -/
def listToIntervalSetAux : IntervalSet → List Interval → Option IntervalSet
  | acc, [] => some acc
  | acc, i :: rest =>
    if i.isValid then
      match acc.insert i with
      | some acc2 => listToIntervalSetAux acc2 rest
      | none => none
    else none

/-- `ToIntervalSet for Vec<Interval>`. -/
def listToIntervalSet (l : List Interval) : Option IntervalSet :=
  listToIntervalSetAux IntervalSet.empty l

/-- Loop of `ToIntervalSet for Vec<(u32, u32)>`. -/
def tuplesToIntervalSetAux : IntervalSet → List (Nat × Nat) → Option IntervalSet
  | acc, [] => some acc
  | acc, (b, e) :: rest =>
    if b ≤ e then
      match acc.insert ⟨b, e⟩ with
      | some acc2 => tuplesToIntervalSetAux acc2 rest
      | none => none
    else none

/-- `ToIntervalSet for Vec<(u32, u32)>`: panics (here `none`) when `begin > end`. -/
def tuplesToIntervalSet (l : List (Nat × Nat)) : Option IntervalSet :=
  tuplesToIntervalSetAux IntervalSet.empty l

/-- `IntervalSet::flatten` on the underlying list: each interval `[lo, hi]`
contributes the markers `lo` and `hi + 1` (wrapping `u32` increment). -/
def flattenL : List Interval → List Nat
  | [] => []
  | i :: rest => i.lo :: wAdd1 i.hi :: flattenL rest

/-- `IntervalSet::flatten`. -/
def IntervalSet.flatten (s : IntervalSet) : List Nat := flattenL s.intervals

/-- Pairing loop of `IntervalSet::unflatten`: `Interval(vec[i], vec[i+1] - 1)`;
an odd-length vector makes the source index out of bounds (here `none`). -/
def unflattenL : List Nat → Option (List Interval)
  | [] => some []
  | [_] => none
  | a :: b :: rest => (unflattenL rest).map fun l => ⟨a, wSub1 b⟩ :: l

/-- `IntervalSet::unflatten`: pair up the markers, then `to_interval_set()`
(which re-checks validity and folds `insert`). -/
def IntervalSet.unflatten (v : List Nat) : Option IntervalSet :=
  (unflattenL v).bind listToIntervalSet

/-- Rust `iter().min()`. -/
def listMin : List Nat → Option Nat
  | [] => none
  | x :: xs => some (match listMin xs with | none => x | some m => Nat.min x m)

/-- Rust `iter().max()`. -/
def listMax : List Nat → Option Nat
  | [] => none
  | x :: xs => some (match listMax xs with | none => x | some m => Nat.max x m)

/-- `std::cmp::min` at type `Option<u32>` (`None` is smallest). -/
def optMin : Option Nat → Option Nat → Option Nat
  | none, _ => none
  | some _, none => none
  | some a, some b => some (Nat.min a b)

/-- `std::cmp::max` at type `Option<u32>` (`None` is smallest). -/
def optMax : Option Nat → Option Nat → Option Nat
  | none, b => b
  | some a, none => some a
  | some a, some b => some (Nat.max a b)

/-- Rust `iter().enumerate()` with a starting index. -/
def enumFrom : Nat → List Nat → List (Nat × Nat)
  | _, [] => []
  | n, x :: xs => (n, x) :: enumFrom (n + 1) xs

/-- Parity of a `usize`: `n % 2 != 0`. -/
def parityB (n : Nat) : Bool := n % 2 == 1

/-- One emission step of the sweep: `if inres ^ (res.len() % 2 != 0) { res.push(scan) }`,
where `lin`/`rin` are `!((scan < *head.1) ^ (head.0 % 2 != 0))` — written here
as `==` of the two sides, which is the same boolean function. -/
def pushRes (op : Bool → Bool → Bool) (lin rin : Bool) (scan : Nat)
    (res : List Nat) : List Nat :=
  if op lin rin == parityB res.length then res else res ++ [scan]

/-- The sweep loop of `IntervalSet::merge`.  `lhead`/`rhead` are the current
`(index, marker)` pairs of the two enumerated flattened sequences, `ltail`/`rtail`
the rest; `res` is the emitted boundary list.  Each iteration computes the
membership booleans from the old heads, possibly pushes `scan` (`pushRes`),
advances every side whose head marker equals `scan` (the `"Deal with it braw"`
panics on iterator exhaustion become `none`), and continues with
`scan = min(lhead.1, rhead.1)`.  The `fuel` argument bounds the iteration count
of the `while` loop (proved sufficient for normalized operands). -/
def mergeLoop (op : Bool → Bool → Bool) (sentinel : Nat) :
    Nat → Nat → Nat × Nat → List (Nat × Nat) → Nat × Nat → List (Nat × Nat) →
    List Nat → Option (List Nat)
  | 0, _, _, _, _, _, _ => none
  | fuel + 1, scan, lhead, ltail, rhead, rtail, res =>
    if scan < sentinel then
      if scan = lhead.2 then
        match ltail with
        | [] => none
        | lh :: lt =>
          if scan = rhead.2 then
            match rtail with
            | [] => none
            | rh :: rt =>
              mergeLoop op sentinel fuel (Nat.min lh.2 rh.2) lh lt rh rt
                (pushRes op (decide (scan < lhead.2) == parityB lhead.1)
                  (decide (scan < rhead.2) == parityB rhead.1) scan res)
          else
            mergeLoop op sentinel fuel (Nat.min lh.2 rhead.2) lh lt rhead rtail
              (pushRes op (decide (scan < lhead.2) == parityB lhead.1)
                (decide (scan < rhead.2) == parityB rhead.1) scan res)
      else
        if scan = rhead.2 then
          match rtail with
          | [] => none
          | rh :: rt =>
            mergeLoop op sentinel fuel (Nat.min lhead.2 rh.2) lhead ltail rh rt
              (pushRes op (decide (scan < lhead.2) == parityB lhead.1)
                (decide (scan < rhead.2) == parityB rhead.1) scan res)
        else
          mergeLoop op sentinel fuel (Nat.min lhead.2 rhead.2) lhead ltail rhead rtail
            (pushRes op (decide (scan < lhead.2) == parityB lhead.1)
              (decide (scan < rhead.2) == parityB rhead.1) scan res)
    else some res

/-- `IntervalSet::merge`: flatten both operands, append the sentinel
`max marker + 1` (wrapping `u32` add) to both, sweep from the minimum marker,
and unflatten the boundary list.  The `unwrap` on `cmp::max`/`cmp::min` of
empty sequences becomes `none`. -/
def IntervalSet.merge (s rhs : IntervalSet) (op : Bool → Bool → Bool) :
    Option IntervalSet :=
  if s.is_empty && rhs.is_empty then some s
  else
    match optMax (listMax s.flatten) (listMax rhs.flatten) with
    | none => none
    | some m =>
      match optMin (listMin (s.flatten ++ [wAdd1 m]))
          (listMin (rhs.flatten ++ [wAdd1 m])) with
      | none => none
      | some scan0 =>
        match enumFrom 0 (s.flatten ++ [wAdd1 m]),
            enumFrom 0 (rhs.flatten ++ [wAdd1 m]) with
        | lh :: lt, rh :: rt =>
          (mergeLoop op (wAdd1 m)
            ((s.flatten ++ [wAdd1 m]).length + (rhs.flatten ++ [wAdd1 m]).length)
            scan0 lh lt rh rt []).bind IntervalSet.unflatten
        | _, _ => none

/-- `IntervalSet::union`. -/
def IntervalSet.union (s rhs : IntervalSet) : Option IntervalSet :=
  s.merge rhs fun a b => a || b

/-- `IntervalSet::intersection`. -/
def IntervalSet.intersection (s rhs : IntervalSet) : Option IntervalSet :=
  s.merge rhs fun a b => a && b

/-- `IntervalSet::difference`. -/
def IntervalSet.difference (s rhs : IntervalSet) : Option IntervalSet :=
  s.merge rhs fun a b => a && !b

/-- `IntervalSet::symetric_difference`. -/
def IntervalSet.symetric_difference (s rhs : IntervalSet) : Option IntervalSet :=
  s.merge rhs fun a b => Bool.xor a b

/-- `IntervalSet::max()`: running maximum of `(intv.1 - intv.0) as usize`
(wrapping `u32` subtraction), strict comparison, accumulator starting at
`usize::min_value() = 0`, result starting at `None`. -/
def IntervalSet.max (s : IntervalSet) : Option Interval :=
  if s.is_empty then none
  else
    (s.intervals.foldl
      (fun (acc : Nat × Option Interval) intv =>
        let curr := wSub intv.hi intv.lo
        if acc.1 < curr then (curr, some intv) else acc)
      (0, none)).2

/-- `IntervalSet::size()`: `fold(0, |acc, x| acc + x.range_size())` in `u32`. -/
def IntervalSet.size (s : IntervalSet) : Nat :=
  if s.is_empty then 0
  else s.intervals.foldl (fun acc x => (acc + x.range_size) % U32MOD) 0

/-- Whitespace for `str::split_whitespace` (ASCII fragment). -/
def isWsChar (c : Char) : Bool := c == ' ' || c == '\t' || c == '\n' || c == '\r'

/-- Accumulating loop of `split_whitespace` (current token is reversed). -/
def splitWsAux : List Char → List Char → List (List Char)
  | cur, [] => if cur.isEmpty then [] else [cur.reverse]
  | cur, c :: rest =>
    if isWsChar c then
      if cur.isEmpty then splitWsAux [] rest
      else cur.reverse :: splitWsAux [] rest
    else splitWsAux (c :: cur) rest

/-- `str::split_whitespace`: maximal runs of non-whitespace characters. -/
def splitWs (s : List Char) : List (List Char) := splitWsAux [] s

/-- `str::split('-')`: keeps empty pieces, `"" → [""]`. -/
def splitDash : List Char → List (List Char)
  | [] => [[]]
  | c :: rest =>
    if c == '-' then [] :: splitDash rest
    else
      match splitDash rest with
      | [] => [[c]]
      | p :: ps => (c :: p) :: ps

/-- Value of a digit string (most significant first). -/
def digitsValAux : Nat → List Char → Nat
  | acc, [] => acc
  | acc, c :: rest => digitsValAux (acc * 10 + (c.toNat - 48)) rest

/-- Strip the optional leading `'+'` accepted by `u32::from_str`. -/
def stripPlus : List Char → List Char
  | [] => []
  | c :: rest => if c = '+' then rest else c :: rest

/-- `u32::from_str`: optional leading `'+'`, then one or more ASCII digits,
value below `2^32`; anything else is an error (the source `unwrap`s it,
so an error is a panic, modelled `none`). -/
def parseU32 (tok : List Char) : Option Nat :=
  if (stripPlus tok).isEmpty then none
  else if (stripPlus tok).all (fun c => c.isDigit) then
    if digitsValAux 0 (stripPlus tok) < U32MOD then
      some (digitsValAux 0 (stripPlus tok))
    else none
  else none

/-- `interval.split('-').map(|b| u32::from_str(b).unwrap()).collect()`. -/
def parseBounds : List (List Char) → Option (List Nat)
  | [] => some []
  | p :: ps => (parseU32 p).bind fun v => (parseBounds ps).map fun vs => v :: vs

/-- One iteration of the parsing loop of `ToIntervalSet for String`. -/
def parseToken (acc : IntervalSet) (tok : List Char) : Option IntervalSet :=
  if tok.contains '-' then
    (parseBounds (splitDash tok)).bind fun bounds =>
      match bounds with
      | b0 :: b1 :: _ =>
        (Interval.new b0 b1).bind fun iv =>
          (intervalToIntervalSet iv).bind fun s => acc.union s
      | _ => none
  else
    (parseU32 tok).bind fun b =>
      (Interval.new b b).bind fun iv =>
        (intervalToIntervalSet iv).bind fun s => acc.union s

/-- The parsing loop of `ToIntervalSet for String`. -/
def parseFold : IntervalSet → List (List Char) → Option IntervalSet
  | acc, [] => some acc
  | acc, tok :: rest => (parseToken acc tok).bind fun acc2 => parseFold acc2 rest

/-- `ToIntervalSet for String`. -/
def stringToIntervalSet (s : List Char) : Option IntervalSet :=
  parseFold IntervalSet.empty (splitWs s)

/-! ### Specification-side definitions -/

/-- `x ∈ [lo, hi]` (mathematical membership of an integer in an interval). -/
def Interval.memB (i : Interval) (x : Nat) : Bool :=
  decide (i.lo ≤ x) && decide (x ≤ i.hi)

/-- Membership of an integer in a list of intervals. -/
def memL (l : List Interval) (x : Nat) : Bool := l.any fun i => i.memB x

/-- Membership of an integer in an `IntervalSet`. -/
def IntervalSet.memB (s : IntervalSet) (x : Nat) : Bool := memL s.intervals x

/-- The normalization invariant of the spec (§3): each interval valid, sorted
ascending, pairwise disjoint and non-adjacent (`intervals[i].hi + 1 <
intervals[i+1].lo`, in exact arithmetic). -/
def normalized : List Interval → Prop
  | [] => True
  | [i] => i.lo ≤ i.hi
  | i :: j :: rest => i.lo ≤ i.hi ∧ i.hi + 1 < j.lo ∧ normalized (j :: rest)

instance decNormalized : (l : List Interval) → Decidable (normalized l)
  | [] => isTrue trivial
  | [i] => decidable_of_iff (i.lo ≤ i.hi) (by simp [normalized])
  | i :: j :: rest =>
    have : Decidable (normalized (j :: rest)) := decNormalized (j :: rest)
    decidable_of_iff (i.lo ≤ i.hi ∧ i.hi + 1 < j.lo ∧ normalized (j :: rest))
      (by simp [normalized])

/-- Number of markers `≤ x` in a flattened sequence. -/
def countLe (v : List Nat) (x : Nat) : Nat :=
  (v.filter fun m => decide (m ≤ x)).length

/-- Parity membership in a flattened marker sequence. -/
def memFlat (v : List Nat) (x : Nat) : Bool := parityB (countLe v x)

/-- Strictly ascending marker sequence. -/
def strictAsc (v : List Nat) : Prop := List.Pairwise (fun a b => a < b) v

/-- Exact (non-wrapping) total size of a list of intervals. -/
def sizeN (l : List Interval) : Nat := (l.map fun i => i.hi - i.lo + 1).sum

/-- All upper bounds at most `c`. -/
def boundedBy (l : List Interval) (c : Nat) : Prop := ∀ i ∈ l, i.hi ≤ c

instance (l : List Interval) (c : Nat) : Decidable (boundedBy l c) :=
  inferInstanceAs (Decidable (∀ i ∈ l, i.hi ≤ c))

/-- True cardinality of the set of integers below `2^32` covered by the
intervals (the mathematical size of the denoted set). -/
def memCard (l : List Interval) : Nat :=
  ((Finset.range U32MOD).filter fun x => memL l x = true).card

/-- Wellformed token of the textual grammar, in the form the sweep handles
without overflow: a plain decimal numeral `n`, or a single-dash pair `lo-hi`
of decimal numerals with `lo ≤ hi`, all values at most `U32MAX - 2`. -/
def goodTokenB (tok : List Char) : Bool :=
  match splitDash tok with
  | [p] => !p.isEmpty && p.all (fun c => c.isDigit)
      && decide (digitsValAux 0 p ≤ U32MAX - 2)
  | [p, q] => !p.isEmpty && p.all (fun c => c.isDigit)
      && (!q.isEmpty && q.all (fun c => c.isDigit))
      && decide (digitsValAux 0 p ≤ digitsValAux 0 q)
      && decide (digitsValAux 0 q ≤ U32MAX - 2)
  | _ => false

/-- The interval denoted by a wellformed token. -/
def tokInterval (tok : List Char) : Interval :=
  match splitDash tok with
  | [p] => ⟨digitsValAux 0 p, digitsValAux 0 p⟩
  | [p, q] => ⟨digitsValAux 0 p, digitsValAux 0 q⟩
  | _ => ⟨0, 0⟩

/-- Gap between an interval and the head of a following list. -/
def gapAfter (a : Interval) : List Interval → Prop
  | [] => True
  | b :: _ => a.hi + 1 < b.lo

/-! ## Lemmas -/

theorem U32MAX_lt : U32MAX < U32MOD := by decide

theorem wAdd1_eq {x : Nat} (h : x < U32MAX) : wAdd1 x = x + 1 := by
  unfold wAdd1 U32MOD; unfold U32MAX at h; omega

theorem wAdd1_max : wAdd1 U32MAX = 0 := by decide

theorem wSub1_wAdd1 {x : Nat} (h : x < U32MOD) : wSub1 (wAdd1 x) = x := by
  unfold wSub1 wAdd1 U32MOD; unfold U32MOD U32MAX at *; omega

theorem wSub1_eq {x : Nat} (h1 : 1 ≤ x) (h2 : x < U32MOD) : wSub1 x = x - 1 := by
  unfold wSub1 U32MAX U32MOD; unfold U32MOD at h2; omega

theorem wSub_eq {a b : Nat} (h : b ≤ a) (ha : a < U32MOD) : wSub a b = a - b := by
  unfold wSub U32MOD; unfold U32MOD at ha; omega

theorem parityB_zero : parityB 0 = false := rfl

theorem parityB_succ (n : Nat) : parityB (n + 1) = !parityB n := by
  unfold parityB
  rcases Nat.mod_two_eq_zero_or_one n with h | h <;> simp [Nat.add_mod, h]

theorem countLe_nil (x : Nat) : countLe [] x = 0 := rfl

theorem countLe_cons (m : Nat) (v : List Nat) (x : Nat) :
    countLe (m :: v) x = (if m ≤ x then 1 else 0) + countLe v x := by
  unfold countLe
  by_cases h : m ≤ x <;> simp [List.filter_cons, h, Nat.add_comm]

theorem countLe_append (u v : List Nat) (x : Nat) :
    countLe (u ++ v) x = countLe u x + countLe v x := by
  unfold countLe; simp [List.filter_append]

theorem countLe_all_le {v : List Nat} {x : Nat} (h : ∀ y ∈ v, y ≤ x) :
    countLe v x = v.length := by
  unfold countLe
  rw [List.filter_eq_self.mpr]
  intro a ha
  exact decide_eq_true_iff.mpr (h a ha)

theorem countLe_all_gt {v : List Nat} {x : Nat} (h : ∀ y ∈ v, x < y) :
    countLe v x = 0 := by
  unfold countLe
  rw [List.length_eq_zero]
  rw [List.filter_eq_nil_iff]
  intro a ha
  simpa using Nat.not_le.mpr (h a ha)

/-! ### Normalization structure -/

theorem normalized_cons (a : Interval) (l : List Interval) :
    normalized (a :: l) ↔ a.lo ≤ a.hi ∧ gapAfter a l ∧ normalized l := by
  cases l <;> simp [normalized, gapAfter]

theorem normalized_tail {a : Interval} {l : List Interval}
    (h : normalized (a :: l)) : normalized l :=
  ((normalized_cons a l).mp h).2.2

theorem normalized_valid {l : List Interval} (h : normalized l) :
    ∀ i ∈ l, i.lo ≤ i.hi := by
  induction l with
  | nil => intro i hi; cases hi
  | cons a t ih =>
    rcases (normalized_cons a t).mp h with ⟨hv, _, ht⟩
    intro i hi
    rcases List.mem_cons.mp hi with rfl | hi
    · exact hv
    · exact ih ht i hi

theorem normalized_gap_all {a : Interval} {l : List Interval}
    (h : normalized (a :: l)) : ∀ b ∈ l, a.hi + 1 < b.lo := by
  induction l generalizing a with
  | nil => intro b hb; cases hb
  | cons c t ih =>
    rcases (normalized_cons a (c :: t)).mp h with ⟨_, hgap, ht⟩
    intro b hb
    rcases List.mem_cons.mp hb with rfl | hb
    · exact hgap
    · have hc : c.lo ≤ c.hi := (normalized_valid ht c (List.mem_cons_self c t))
      have := ih ht b hb
      have hgap2 : a.hi + 1 < c.lo := hgap
      omega

theorem normalized_sorted {l : List Interval} (h : normalized l) :
    List.Sorted intvLe l := by
  induction l with
  | nil => exact List.sorted_nil
  | cons a t ih =>
    rw [List.sorted_cons]
    refine ⟨fun b hb => ?_, ih (normalized_tail h)⟩
    have h1 := normalized_gap_all h b hb
    have h2 := normalized_valid h a (List.mem_cons_self a t)
    exact Or.inl (by omega)

theorem memL_nil (x : Nat) : memL [] x = false := rfl

theorem memL_cons (a : Interval) (l : List Interval) (x : Nat) :
    memL (a :: l) x = (a.memB x || memL l x) := by
  simp [memL]

theorem memL_append (u v : List Interval) (x : Nat) :
    memL (u ++ v) x = (memL u x || memL v x) := by
  simp [memL]

theorem memL_eq_false_of_lt {l : List Interval} {x : Nat}
    (h : ∀ i ∈ l, x < i.lo) : memL l x = false := by
  rw [memL, List.any_eq_false]
  intro i hi
  have := h i hi
  simp [Interval.memB]
  omega

theorem memL_eq_false_of_gt {l : List Interval} {x : Nat}
    (h : ∀ i ∈ l, i.hi < x) : memL l x = false := by
  rw [memL, List.any_eq_false]
  intro i hi
  have := h i hi
  simp [Interval.memB]
  omega

/-! ### The insertion algorithm -/

theorem memB_hull {ni ns : Nat} {intv : Interval} (h1 : ni ≤ intv.hi + 1)
    (h2 : intv.lo ≤ ns + 1) (_h3 : ni ≤ ns) (_h4 : intv.lo ≤ intv.hi) (x : Nat) :
    (decide (min ni intv.lo ≤ x) && decide (x ≤ max ns intv.hi))
      = (intv.memB x || (decide (ni ≤ x) && decide (x ≤ ns))) := by
  rw [Bool.eq_iff_iff]
  simp [Interval.memB]
  omega

theorem insertLoop_mem_input :
    ∀ (l : List Interval) (ni ns : Nat) (i : Interval),
      i ∈ (insertLoop ni ns l).1 ++ (insertLoop ni ns l).2.2.2 → i ∈ l := by
  intro l
  induction l with
  | nil => intro ni ns i h; simp [insertLoop] at h
  | cons intv rest ih =>
    intro ni ns i h
    by_cases hc : wAdd1 intv.hi < ni
    · rcases hr : insertLoop ni ns rest with ⟨kept, a, b, r⟩
      simp only [insertLoop, if_pos hc, hr] at h
      rcases List.mem_append.mp h with h1 | h2
      · rcases List.mem_cons.mp h1 with rfl | h1
        · exact List.mem_cons_self _ _
        · refine List.mem_cons_of_mem _ (ih ni ns i ?_)
          rw [hr]
          exact List.mem_append.mpr (Or.inl h1)
      · refine List.mem_cons_of_mem _ (ih ni ns i ?_)
        rw [hr]
        exact List.mem_append.mpr (Or.inr h2)
    · by_cases hbrk : wAdd1 ns < intv.lo
      · simp only [insertLoop, if_neg hc, if_pos hbrk] at h
        simpa using h
      · simp only [insertLoop, if_neg hc, if_neg hbrk] at h
        exact List.mem_cons_of_mem _ (ih _ _ i h)

theorem insertLoop_ind :
    ∀ (l : List Interval), normalized l → (∀ i ∈ l, i.hi < U32MAX) →
    ∀ ni ns : Nat, ni ≤ ns → ns < U32MAX →
    ∃ T : List Interval,
      List.Perm ((insertLoop ni ns l).1 ++ (insertLoop ni ns l).2.2.2 ++
        [⟨(insertLoop ni ns l).2.1, (insertLoop ni ns l).2.2.1⟩]) T ∧
      normalized T ∧
      (insertLoop ni ns l).2.1 ≤ (insertLoop ni ns l).2.2.1 ∧
      (insertLoop ni ns l).2.2.1 < U32MAX ∧
      (∀ i ∈ T, i.hi < U32MAX) ∧
      (∀ b2 : Nat, b2 ≤ ni → (∀ i ∈ l, b2 ≤ i.lo) → b2 ≤ (insertLoop ni ns l).2.1) ∧
      (∀ x : Nat, memL T x = (memL l x || (decide (ni ≤ x) && decide (x ≤ ns)))) := by
  intro l
  induction l with
  | nil =>
    intro _ _ ni ns hv hns
    refine ⟨[⟨ni, ns⟩], ?_, ?_, ?_, ?_, ?_, ?_, ?_⟩ <;>
      simp [insertLoop, normalized, hv, hns, memL, Interval.memB]
  | cons intv rest ih =>
    intro hnorm hb ni ns hv hns
    have hintvb : intv.hi < U32MAX := hb intv (List.mem_cons_self _ _)
    have hintvv : intv.lo ≤ intv.hi := normalized_valid hnorm intv (List.mem_cons_self _ _)
    have hgapall := normalized_gap_all hnorm
    by_cases hc : wAdd1 intv.hi < ni
    · -- `continue`: the interval is kept
      have hc' : intv.hi + 1 < ni := by rwa [wAdd1_eq hintvb] at hc
      obtain ⟨T2, hperm, hTnorm, hle, hlt, hTb, hlb, hmem⟩ :=
        ih (normalized_tail hnorm) (fun i hi => hb i (List.mem_cons_of_mem _ hi)) ni ns hv hns
      rcases hr : insertLoop ni ns rest with ⟨kept, a, b, r⟩
      rw [hr] at hperm hle hlt hlb
      simp only [insertLoop, if_pos hc, hr]
      have hT2sub : ∀ i ∈ T2, i ∈ kept ++ r ++ [(⟨a, b⟩ : Interval)] := fun i hi =>
        hperm.mem_iff.mpr hi
      have hT2gap : ∀ i ∈ T2, intv.hi + 1 < i.lo := by
        intro i hi
        rcases List.mem_append.mp (hT2sub i hi) with h1 | h2
        · have : i ∈ rest := by
            apply insertLoop_mem_input rest ni ns
            rw [hr]
            exact h1
          exact hgapall i this
        · have : i = (⟨a, b⟩ : Interval) := by simpa using h2
          subst this
          have : intv.hi + 2 ≤ a := by
            apply hlb (intv.hi + 2) (by omega)
            intro i hi
            have := hgapall i hi
            omega
          simpa using by omega
      refine ⟨intv :: T2, ?_, ?_, hle, hlt, ?_, ?_, ?_⟩
      · simpa using hperm.cons intv
      · refine (normalized_cons intv T2).mpr ⟨hintvv, ?_, hTnorm⟩
        cases T2 with
        | nil => trivial
        | cons c t => exact hT2gap c (List.mem_cons_self _ _)
      · intro i hi
        rcases List.mem_cons.mp hi with rfl | hi
        · exact hintvb
        · exact hTb i hi
      · intro b2 hb2 hlo
        exact hlb b2 hb2 fun i hi => hlo i (List.mem_cons_of_mem _ hi)
      · intro x
        rw [memL_cons, memL_cons, hmem x, Bool.or_assoc]
    · by_cases hbrk : wAdd1 ns < intv.lo
      · -- `break`: remaining intervals untouched, candidate goes first
        have hbrk' : ns + 1 < intv.lo := by rwa [wAdd1_eq hns] at hbrk
        simp only [insertLoop, if_neg hc, if_pos hbrk]
        refine ⟨⟨ni, ns⟩ :: intv :: rest, ?_, ?_, le_refl _ |>.trans hv, hns, ?_, ?_, ?_⟩
        · simpa using List.perm_append_singleton (⟨ni, ns⟩ : Interval) (intv :: rest)
        · refine (normalized_cons _ _).mpr ⟨hv, ?_, hnorm⟩
          exact hbrk'
        · intro i hi
          rcases List.mem_cons.mp hi with rfl | hi
          · exact hns
          · exact hb i hi
        · intro b2 hb2 _; exact hb2
        · intro x
          rw [memL_cons, Bool.or_comm]
          rfl
      · -- absorb: the interval is removed and merged into the candidate
        have hc2 : ni ≤ intv.hi + 1 := by
          rw [wAdd1_eq hintvb] at hc
          omega
        have hbrk2 : intv.lo ≤ ns + 1 := by
          rw [wAdd1_eq hns] at hbrk
          omega
        obtain ⟨T2, hperm, hTnorm, hle, hlt, hTb, hlb, hmem⟩ :=
          ih (normalized_tail hnorm) (fun i hi => hb i (List.mem_cons_of_mem _ hi))
            (min ni intv.lo) (max ns intv.hi) (by omega) (by omega)
        simp only [insertLoop, if_neg hc, if_neg hbrk]
        refine ⟨T2, hperm, hTnorm, hle, hlt, hTb, ?_, ?_⟩
        · intro b2 hb2 hlo
          refine hlb b2 ?_ fun i hi => hlo i (List.mem_cons_of_mem _ hi)
          exact le_min hb2 (hlo intv (List.mem_cons_self _ _))
        · intro x
          rw [hmem x, memL_cons, memB_hull hc2 hbrk2 hv hintvv,
            Bool.or_left_comm, Bool.or_assoc]

theorem insert_spec (s : IntervalSet) (e : Interval)
    (hnorm : normalized s.intervals) (hb : ∀ i ∈ s.intervals, i.hi < U32MAX)
    (hv : e.lo ≤ e.hi) (he : e.hi < U32MAX) :
    ∃ t : IntervalSet, s.insert e = some t ∧ normalized t.intervals ∧
      (∀ i ∈ t.intervals, i.hi < U32MAX) ∧
      ∀ x, t.memB x = (s.memB x || e.memB x) := by
  obtain ⟨T, hperm, hTnorm, hle, hlt, hTb, _, hmem⟩ :=
    insertLoop_ind s.intervals hnorm hb e.lo e.hi hv he
  rcases hr : insertLoop e.lo e.hi s.intervals with ⟨kept, a, b, r⟩
  simp only [hr] at hperm hle
  refine ⟨⟨T⟩, ?_, hTnorm, hTb, fun x => hmem x⟩
  simp only [IntervalSet.insert, hr, Interval.new, if_pos hle, Option.map_some']
  congr 1
  congr 1
  exact List.eq_of_perm_of_sorted ((List.perm_insertionSort intvLe _).trans hperm)
    (List.sorted_insertionSort intvLe _) (normalized_sorted hTnorm)

/-! ### Rebuilding a normalized list by folding `insert` -/

theorem normalized_append_gap :
    ∀ {u v : List Interval}, normalized (u ++ v) →
      ∀ i ∈ u, ∀ j ∈ v, i.hi + 1 < j.lo := by
  intro u
  induction u with
  | nil => intro v _ i hi; cases hi
  | cons a t ih =>
    intro v h i hi j hj
    rcases List.mem_cons.mp hi with rfl | hi
    · exact normalized_gap_all h j (List.mem_append.mpr (Or.inr hj))
    · exact ih (normalized_tail h) i hi j hj

theorem normalized_append_left :
    ∀ {u v : List Interval}, normalized (u ++ v) → normalized u := by
  intro u
  induction u with
  | nil => intro v _; trivial
  | cons a t ih =>
    intro v h
    rcases (normalized_cons a (t ++ v)).mp h with ⟨hv, hgap, ht⟩
    refine (normalized_cons a t).mpr ⟨hv, ?_, ih ht⟩
    cases t with
    | nil => trivial
    | cons b tb => exact hgap

theorem normalized_append_mid :
    ∀ {u : List Interval} {x : Interval} {v : List Interval},
      normalized (u ++ x :: v) → normalized (u ++ [x]) := by
  intro u
  induction u with
  | nil =>
    intro x v h
    simpa [normalized] using normalized_valid h x (List.mem_cons_self _ _)
  | cons a t ih =>
    intro x v h
    rcases (normalized_cons a (t ++ x :: v)).mp h with ⟨hv, hgap, ht⟩
    refine (normalized_cons a (t ++ [x])).mpr ⟨hv, ?_, ih ht⟩
    cases t with
    | nil => exact hgap
    | cons b tb => exact hgap

theorem insertLoop_all_continue :
    ∀ {l : List Interval} {ni ns : Nat}, (∀ i ∈ l, wAdd1 i.hi < ni) →
      insertLoop ni ns l = (l, ni, ns, []) := by
  intro l
  induction l with
  | nil => intro ni ns _; rfl
  | cons intv rest ih =>
    intro ni ns h
    have hc : wAdd1 intv.hi < ni := h intv (List.mem_cons_self _ _)
    rw [insertLoop, if_pos hc, ih fun i hi => h i (List.mem_cons_of_mem _ hi)]

theorem insert_append {acc : List Interval} {e : Interval}
    (hgap : ∀ i ∈ acc, i.hi + 1 < e.lo) (hbm : ∀ i ∈ acc, i.hi < U32MAX)
    (hnorm : normalized (acc ++ [e])) :
    IntervalSet.insert ⟨acc⟩ e = some ⟨acc ++ [e]⟩ := by
  have hev : e.lo ≤ e.hi :=
    normalized_valid hnorm e (List.mem_append.mpr (Or.inr (List.mem_cons_self _ _)))
  have hcont : insertLoop e.lo e.hi acc = (acc, e.lo, e.hi, []) :=
    insertLoop_all_continue fun i hi => by
      rw [wAdd1_eq (hbm i hi)]; exact hgap i hi
  simp only [IntervalSet.insert, hcont, Interval.new, if_pos hev, Option.map_some']
  congr 2
  have heta : (⟨e.lo, e.hi⟩ : Interval) = e := rfl
  rw [heta, List.append_nil]
  exact List.Sorted.insertionSort_eq (normalized_sorted hnorm)

theorem listToIntervalSetAux_spec :
    ∀ (rest acc : List Interval), normalized (acc ++ rest) →
      boundedBy (acc ++ rest) U32MAX →
      listToIntervalSetAux ⟨acc⟩ rest = some ⟨acc ++ rest⟩ := by
  intro rest
  induction rest with
  | nil => intro acc _ _; rw [List.append_nil]; rfl
  | cons e rest2 ih =>
    intro acc hnorm hb
    have hev : e.lo ≤ e.hi :=
      normalized_valid hnorm e (List.mem_append.mpr (Or.inr (List.mem_cons_self _ _)))
    have hgap : ∀ i ∈ acc, i.hi + 1 < e.lo := fun i hi =>
      normalized_append_gap hnorm i hi e (List.mem_cons_self _ _)
    have hehi : e.hi ≤ U32MAX := hb e (List.mem_append.mpr (Or.inr (List.mem_cons_self _ _)))
    have hbm : ∀ i ∈ acc, i.hi < U32MAX := fun i hi => by
      have h1 := hgap i hi
      have h2 := hehi
      omega
    have hins : IntervalSet.insert ⟨acc⟩ e = some ⟨acc ++ [e]⟩ :=
      insert_append hgap hbm (normalized_append_mid hnorm)
    have hval : e.isValid = true := decide_eq_true hev
    rw [listToIntervalSetAux, if_pos hval, hins]
    show listToIntervalSetAux ⟨acc ++ [e]⟩ rest2 = some ⟨acc ++ e :: rest2⟩
    have hassoc : (acc ++ [e]) ++ rest2 = acc ++ e :: rest2 := by simp
    rw [ih (acc ++ [e]) (by rw [hassoc]; exact hnorm) (by rw [hassoc]; exact hb), hassoc]

theorem listToIntervalSet_normalized {l : List Interval}
    (h : normalized l) (hb : boundedBy l U32MAX) :
    listToIntervalSet l = some ⟨l⟩ := by
  unfold listToIntervalSet IntervalSet.empty
  exact listToIntervalSetAux_spec l [] h hb

theorem unflattenL_flattenL :
    ∀ {l : List Interval}, boundedBy l U32MAX →
      unflattenL (flattenL l) = some l := by
  intro l
  induction l with
  | nil => intro _; rfl
  | cons i rest ih =>
    intro hb
    have hihi : i.hi < U32MOD := by
      have h1 := hb i (List.mem_cons_self _ _)
      have h2 := U32MAX_lt
      omega
    cases rest with
    | nil =>
      simp only [flattenL, unflattenL, wSub1_wAdd1 hihi]
      rfl
    | cons j rest2 =>
      have ihr := ih fun k hk => hb k (List.mem_cons_of_mem _ hk)
      show (unflattenL (flattenL (j :: rest2))).map
          (fun l => (⟨i.lo, wSub1 (wAdd1 i.hi)⟩ : Interval) :: l) = some (i :: j :: rest2)
      rw [ihr, Option.map_some', wSub1_wAdd1 hihi]

theorem unflatten_flatten {S : IntervalSet}
    (h : normalized S.intervals) (hb : boundedBy S.intervals U32MAX) :
    IntervalSet.unflatten S.flatten = some S := by
  unfold IntervalSet.unflatten IntervalSet.flatten
  rw [unflattenL_flattenL hb]
  simpa [Option.bind] using listToIntervalSet_normalized h hb

/-! ### Flattened marker sequences -/

theorem parityB_add_two (n : Nat) : parityB (n + 2) = parityB n := by
  unfold parityB
  congr 1
  omega

theorem parityB_even {n : Nat} (h : n % 2 = 0) : parityB n = false := by
  unfold parityB
  simp [h]

theorem flattenL_length (l : List Interval) : (flattenL l).length = 2 * l.length := by
  induction l with
  | nil => rfl
  | cons i rest ih => simp [flattenL, ih]; omega

theorem flattenL_mem_lb {l : List Interval} (hval : ∀ i ∈ l, i.lo ≤ i.hi)
    (hnw : ∀ i ∈ l, i.hi < U32MAX)
    {b : Nat} (h : ∀ i ∈ l, b ≤ i.lo) : ∀ m ∈ flattenL l, b ≤ m := by
  induction l with
  | nil => intro m hm; cases hm
  | cons i rest ih =>
    intro m hm
    have hv : i.lo ≤ i.hi := hval i (List.mem_cons_self _ _)
    have hb : b ≤ i.lo := h i (List.mem_cons_self _ _)
    rcases List.mem_cons.mp hm with rfl | hm
    · exact hb
    rcases List.mem_cons.mp hm with rfl | hm
    · rw [wAdd1_eq (hnw i (List.mem_cons_self _ _))]
      omega
    · exact ih (fun j hj => hval j (List.mem_cons_of_mem _ hj))
        (fun j hj => hnw j (List.mem_cons_of_mem _ hj))
        (fun j hj => h j (List.mem_cons_of_mem _ hj)) m hm

theorem flattenL_mem_ub {l : List Interval} (hnw : ∀ i ∈ l, i.hi < U32MAX)
    {c : Nat} (hlo : ∀ i ∈ l, i.lo ≤ c) (hhi : ∀ i ∈ l, i.hi + 1 ≤ c) :
    ∀ m ∈ flattenL l, m ≤ c := by
  induction l with
  | nil => intro m hm; cases hm
  | cons i rest ih =>
    intro m hm
    rcases List.mem_cons.mp hm with rfl | hm
    · exact hlo i (List.mem_cons_self _ _)
    rcases List.mem_cons.mp hm with rfl | hm
    · rw [wAdd1_eq (hnw i (List.mem_cons_self _ _))]
      exact hhi i (List.mem_cons_self _ _)
    · exact ih (fun j hj => hnw j (List.mem_cons_of_mem _ hj))
        (fun j hj => hlo j (List.mem_cons_of_mem _ hj))
        (fun j hj => hhi j (List.mem_cons_of_mem _ hj)) m hm

theorem flattenL_strictAsc {l : List Interval}
    (hnorm : normalized l) (hnw : ∀ i ∈ l, i.hi < U32MAX) :
    strictAsc (flattenL l) := by
  induction l with
  | nil => exact List.Pairwise.nil
  | cons i rest ih =>
    have hv : i.lo ≤ i.hi := normalized_valid hnorm i (List.mem_cons_self _ _)
    have hiw : i.hi < U32MAX := hnw i (List.mem_cons_self _ _)
    have hgap := normalized_gap_all hnorm
    have hrest_lb : ∀ m ∈ flattenL rest, i.hi + 2 ≤ m :=
      flattenL_mem_lb (fun j hj => normalized_valid (normalized_tail hnorm) j hj)
        (fun j hj => hnw j (List.mem_cons_of_mem _ hj))
        (fun j hj => by have := hgap j hj; omega)
    show List.Pairwise _ (i.lo :: wAdd1 i.hi :: flattenL rest)
    rw [wAdd1_eq hiw]
    refine List.Pairwise.cons ?_ (List.Pairwise.cons ?_ ?_)
    · intro m hm
      rcases List.mem_cons.mp hm with rfl | hm
      · omega
      · have := hrest_lb m hm
        omega
    · intro m hm
      have := hrest_lb m hm
      omega
    · exact ih (normalized_tail hnorm) fun j hj => hnw j (List.mem_cons_of_mem _ hj)

theorem memFlat_flattenL {l : List Interval}
    (hnorm : normalized l) (hnw : ∀ i ∈ l, i.hi < U32MAX) (x : Nat) :
    memFlat (flattenL l) x = memL l x := by
  induction l with
  | nil => rfl
  | cons i rest ih =>
    have hv : i.lo ≤ i.hi := normalized_valid hnorm i (List.mem_cons_self _ _)
    have hiw : i.hi < U32MAX := hnw i (List.mem_cons_self _ _)
    have hgap := normalized_gap_all hnorm
    have hrest_lb : ∀ m ∈ flattenL rest, i.hi + 2 ≤ m :=
      flattenL_mem_lb (fun j hj => normalized_valid (normalized_tail hnorm) j hj)
        (fun j hj => hnw j (List.mem_cons_of_mem _ hj))
        (fun j hj => by have := hgap j hj; omega)
    have ihr := ih (normalized_tail hnorm) fun j hj => hnw j (List.mem_cons_of_mem _ hj)
    show memFlat (i.lo :: wAdd1 i.hi :: flattenL rest) x = _
    rw [wAdd1_eq hiw]
    unfold memFlat
    rw [countLe_cons, countLe_cons, memL_cons]
    rcases Nat.lt_or_ge x i.lo with hx | hx
    · rw [if_neg (by omega), if_neg (by omega),
        countLe_all_gt (fun m hm => by have := hrest_lb m hm; omega)]
      have h1 : Interval.memB i x = false := by
        simp [Interval.memB]; omega
      have h2 : memL rest x = false :=
        memL_eq_false_of_lt fun j hj => by have := hgap j hj; omega
      rw [h1, h2]
      rfl
    · rcases Nat.lt_or_ge x (i.hi + 1) with hx2 | hx2
      · rw [if_pos hx, if_neg (by omega),
          countLe_all_gt (fun m hm => by have := hrest_lb m hm; omega)]
        have h1 : Interval.memB i x = true := by
          simp [Interval.memB]; omega
        rw [h1]
        rfl
      · rw [if_pos hx, if_pos (by omega)]
        have h1 : Interval.memB i x = false := by
          simp [Interval.memB]; omega
        rw [h1, Bool.false_or]
        rw [show (1 : Nat) + (1 + countLe (flattenL rest) x)
            = countLe (flattenL rest) x + 2 by omega]
        rw [parityB_add_two]
        exact ihr

/-! ### List minimum / maximum -/

theorem listMin_mem : ∀ {v : List Nat} {m : Nat}, listMin v = some m → m ∈ v := by
  intro v
  induction v with
  | nil => intro m h; cases h
  | cons x xs ih =>
    intro m h
    rw [listMin] at h
    rcases hx : listMin xs with _ | m2
    · rw [hx] at h
      simp at h
      simp [h]
    · rw [hx] at h
      simp at h
      rcases Nat.le_total x m2 with hle | hle
      · have h2 : Nat.min x m2 = x := Nat.min_eq_left hle
        rw [h2] at h
        simp [h]
      · have h2 : Nat.min x m2 = m2 := Nat.min_eq_right hle
        rw [h2] at h
        exact List.mem_cons_of_mem _ (h ▸ ih hx)

theorem listMin_sorted_head {x : Nat} {xs : List Nat} (h : ∀ y ∈ xs, x ≤ y) :
    listMin (x :: xs) = some x := by
  rw [listMin]
  rcases hx : listMin xs with _ | m2
  · rfl
  · have hle : x ≤ m2 := h m2 (listMin_mem hx)
    have h2 : Nat.min x m2 = x := Nat.min_eq_left hle
    show some (Nat.min x m2) = some x
    rw [h2]

theorem listMax_spec : ∀ {v : List Nat}, v ≠ [] →
    ∃ m, listMax v = some m ∧ m ∈ v ∧ ∀ y ∈ v, y ≤ m := by
  intro v
  induction v with
  | nil => intro h; exact absurd rfl h
  | cons x xs ih =>
    intro _
    cases xs with
    | nil =>
      refine ⟨x, rfl, List.mem_cons_self _ _, ?_⟩
      intro y hy
      rcases List.mem_cons.mp hy with rfl | hy
      · exact le_refl _
      · cases hy
    | cons z zs =>
      obtain ⟨m2, hm2, hmem2, hub2⟩ := ih (by simp)
      refine ⟨Nat.max x m2, ?_, ?_, ?_⟩
      · rw [listMax, hm2]
      · rcases Nat.le_total x m2 with hle | hle
        · have h2 : Nat.max x m2 = m2 := Nat.max_eq_right hle
          rw [h2]
          exact List.mem_cons_of_mem _ hmem2
        · have h2 : Nat.max x m2 = x := Nat.max_eq_left hle
          rw [h2]
          exact List.mem_cons_self _ _
      · intro y hy
        rcases List.mem_cons.mp hy with rfl | hy
        · exact Nat.le_max_left _ _
        · exact le_trans (hub2 y hy) (Nat.le_max_right _ _)

/-! ### Unflattening a strictly ascending even-length marker list -/

theorem unflattenL_spec :
    ∀ (v : List Nat), strictAsc v → (∀ y ∈ v, y < U32MOD) → v.length % 2 = 0 →
      ∃ pairs : List Interval, unflattenL v = some pairs ∧ normalized pairs ∧
        (∀ c : Nat, (∀ y ∈ v, y ≤ c) → ∀ i ∈ pairs, i.hi + 1 ≤ c ∧ i.lo ≤ c) ∧
        (∀ b2 : Nat, (∀ y ∈ v, b2 ≤ y) → ∀ i ∈ pairs, b2 ≤ i.lo) ∧
        (∀ x : Nat, memL pairs x = memFlat v x)
  | [] => by
    intro _ _ _
    exact ⟨[], rfl, trivial, fun c _ i hi => absurd hi (List.not_mem_nil i),
      fun b2 _ i hi => absurd hi (List.not_mem_nil i),
      fun x => rfl⟩
  | [m] => by
    intro _ _ hlen
    simp at hlen
  | a :: b :: rest => by
    intro hasc hub hlen
    have hab : a < b := List.rel_of_pairwise_cons hasc (List.mem_cons_self _ _)
    have hbrest : ∀ y ∈ rest, b < y :=
      fun y hy => List.rel_of_pairwise_cons (List.Pairwise.sublist (by simp) hasc) hy
    have harest : ∀ y ∈ rest, a < y :=
      fun y hy => List.rel_of_pairwise_cons hasc (List.mem_cons_of_mem _ hy)
    have hrestasc : strictAsc rest :=
      (List.pairwise_cons.mp (List.pairwise_cons.mp hasc).2).2
    obtain ⟨pairs2, hp2, hnorm2, hub2, hlb2, hmem2⟩ :=
      unflattenL_spec rest hrestasc
        (fun y hy => hub y (List.mem_cons_of_mem _ (List.mem_cons_of_mem _ hy)))
        (by simp at hlen; omega)
    have hb1 : 1 ≤ b := by omega
    have hbW : b < U32MOD := hub b (List.mem_cons_of_mem _ (List.mem_cons_self _ _))
    have hsub : wSub1 b = b - 1 := wSub1_eq hb1 hbW
    refine ⟨⟨a, b - 1⟩ :: pairs2, ?_, ?_, ?_, ?_, ?_⟩
    · show (unflattenL rest).map (fun l => (⟨a, wSub1 b⟩ : Interval) :: l) = _
      rw [hp2, Option.map_some', hsub]
    · refine (normalized_cons _ _).mpr ⟨by simp; omega, ?_, hnorm2⟩
      cases pairs2 with
      | nil => trivial
      | cons p ps =>
        show (b - 1) + 1 < p.lo
        have : b + 1 ≤ p.lo := hlb2 (b + 1) (fun y hy => hbrest y hy) p (List.mem_cons_self _ _)
        omega
    · intro c hc i hi
      rcases List.mem_cons.mp hi with rfl | hi
      · constructor
        · have := hc b (List.mem_cons_of_mem _ (List.mem_cons_self _ _))
          simp
          omega
        · exact hc a (List.mem_cons_self _ _)
      · exact hub2 c (fun y hy => hc y (List.mem_cons_of_mem _ (List.mem_cons_of_mem _ hy))) i hi
    · intro b2 hb2 i hi
      rcases List.mem_cons.mp hi with rfl | hi
      · exact hb2 a (List.mem_cons_self _ _)
      · exact hlb2 b2 (fun y hy => hb2 y (List.mem_cons_of_mem _ (List.mem_cons_of_mem _ hy))) i hi
    · intro x
      rw [memL_cons]
      unfold memFlat
      rw [countLe_cons, countLe_cons]
      rcases Nat.lt_or_ge x a with hx | hx
      · rw [if_neg (by omega), if_neg (by omega),
          countLe_all_gt (fun m hm => by have := harest m hm; omega)]
        have h1 : Interval.memB ⟨a, b - 1⟩ x = false := by
          simp [Interval.memB]; omega
        have h2 : memL pairs2 x = false :=
          memL_eq_false_of_lt fun i hi => by
            have := hlb2 (b + 1) (fun y hy => hbrest y hy) i hi
            omega
        rw [h1, h2]
        rfl
      · rcases Nat.lt_or_ge x b with hx2 | hx2
        · rw [if_pos hx, if_neg (by omega),
            countLe_all_gt (fun m hm => by have := hbrest m hm; omega)]
          have h1 : Interval.memB ⟨a, b - 1⟩ x = true := by
            simp [Interval.memB]; omega
          rw [h1]
          rfl
        · rw [if_pos hx, if_pos (by omega)]
          have h1 : Interval.memB ⟨a, b - 1⟩ x = false := by
            simp [Interval.memB]; omega
          rw [h1, Bool.false_or]
          rw [show (1 : Nat) + (1 + countLe rest x) = countLe rest x + 2 by omega]
          rw [parityB_add_two]
          exact hmem2 x

/-! ### The sweep loop -/

theorem strictAsc_suffix {u v : List Nat} (h : strictAsc (u ++ v)) : strictAsc v :=
  List.Pairwise.sublist (List.sublist_append_right u v) h

theorem strictAsc_head_lt {a : Nat} {tl : List Nat} (h : strictAsc (a :: tl)) :
    ∀ y ∈ tl, a < y :=
  fun _ hy => List.rel_of_pairwise_cons h hy

theorem countLe_window {v P tl : List Nat} {v0 x : Nat} (hasc : strictAsc v)
    (heq : v = P ++ v0 :: tl) (hP : ∀ y ∈ P, y ≤ x) (hx : x < v0) :
    countLe v x = P.length := by
  subst heq
  rw [countLe_append, countLe_all_le hP, countLe_all_gt, Nat.add_zero]
  intro y hy
  rcases List.mem_cons.mp hy with rfl | hy
  · exact hx
  · have := strictAsc_head_lt (strictAsc_suffix hasc) y hy
    omega

theorem countLe_window_eq {v P tl : List Nat} {v0 x : Nat} (hasc : strictAsc v)
    (heq : v = P ++ v0 :: tl) (hP : ∀ y ∈ P, y ≤ x) (hv0 : v0 ≤ x)
    (htl : ∀ y ∈ tl, x < y) :
    countLe v x = P.length + 1 := by
  subst heq
  rw [countLe_append, countLe_cons, if_pos hv0, countLe_all_le hP, countLe_all_gt htl]

theorem side_advance {v P tl : List Nat} {v0 scan sentinel : Nat} (hasc : strictAsc v)
    (heq : v = P ++ v0 :: tl) (hsent : sentinel ∈ v) (hP : ∀ y ∈ P, y ≤ scan)
    (hscan : scan = v0) (hterm : scan < sentinel) :
    ∃ v1 tl2, tl = v1 :: tl2 ∧ scan < v1 := by
  cases tl with
  | nil =>
    exfalso
    rw [heq] at hsent
    rcases List.mem_append.mp hsent with hs | hs
    · have := hP sentinel hs
      omega
    · have : sentinel = v0 := by simpa using hs
      omega
  | cons v1 tl2 =>
    refine ⟨v1, tl2, rfl, ?_⟩
    have hsuf : strictAsc (v0 :: v1 :: tl2) := strictAsc_suffix (heq ▸ hasc)
    have := strictAsc_head_lt hsuf v1 (List.mem_cons_self _ _)
    omega

theorem push_invariant (op : Bool → Bool → Bool) (lv rv res : List Nat)
    (scan scan2 cL cR : Nat) (hscan2 : scan < scan2)
    (hresasc : strictAsc res) (hres : ∀ y ∈ res, y < scan)
    (hsem : ∀ x : Nat, x < scan → parityB (countLe res x) = op (memFlat lv x) (memFlat rv x))
    (hclx : ∀ x : Nat, scan ≤ x → x < scan2 → countLe lv x = cL)
    (hcrx : ∀ x : Nat, scan ≤ x → x < scan2 → countLe rv x = cR) :
    strictAsc (pushRes op (parityB cL) (parityB cR) scan res) ∧
    (∀ y ∈ pushRes op (parityB cL) (parityB cR) scan res, y < scan2) ∧
    (∀ x : Nat, x < scan2 →
      parityB (countLe (pushRes op (parityB cL) (parityB cR) scan res) x)
        = op (memFlat lv x) (memFlat rv x)) := by
  unfold pushRes
  by_cases hpush : op (parityB cL) (parityB cR) == parityB res.length
  · rw [if_pos hpush]
    have heqp : op (parityB cL) (parityB cR) = parityB res.length := by
      exact eq_of_beq hpush
    refine ⟨hresasc, fun y hy => lt_trans (hres y hy) hscan2, ?_⟩
    intro x hx
    rcases Nat.lt_or_ge x scan with hx2 | hx2
    · exact hsem x hx2
    · rw [countLe_all_le fun y hy => le_trans (Nat.le_of_lt (hres y hy)) hx2]
      unfold memFlat
      rw [hclx x hx2 hx, hcrx x hx2 hx, ← heqp]
  · rw [if_neg hpush]
    have heqp : op (parityB cL) (parityB cR) = !parityB res.length := by
      cases h1 : op (parityB cL) (parityB cR) <;> cases h2 : parityB res.length <;>
        rw [h1, h2] at hpush <;> simp_all
    refine ⟨?_, ?_, ?_⟩
    · show List.Pairwise (fun a b => a < b) (res ++ [scan])
      rw [List.pairwise_append]
      exact ⟨hresasc, List.pairwise_singleton _ _,
        fun a ha b hb => by simp at hb; subst hb; exact hres a ha⟩
    · intro y hy
      rcases List.mem_append.mp hy with hy | hy
      · exact lt_trans (hres y hy) hscan2
      · simp at hy
        omega
    · intro x hx
      rcases Nat.lt_or_ge x scan with hx2 | hx2
      · have hc : countLe (res ++ [scan]) x = countLe res x := by
          rw [countLe_append, countLe_cons, countLe_nil, if_neg (by omega : ¬ scan ≤ x)]
          omega
        rw [hc]
        exact hsem x hx2
      · have hc : countLe (res ++ [scan]) x = res.length + 1 := by
          rw [countLe_append, countLe_cons, countLe_nil, if_pos hx2,
            countLe_all_le fun y hy => le_trans (Nat.le_of_lt (hres y hy)) hx2]
        rw [hc, parityB_succ]
        unfold memFlat
        rw [hclx x hx2 hx, hcrx x hx2 hx, heqp]

theorem mergeLoop_ok (op : Bool → Bool → Bool) (sentinel : Nat) (lv rv : List Nat)
    (hlasc : strictAsc lv) (hrasc : strictAsc rv)
    (hlsent : sentinel ∈ lv) (hrsent : sentinel ∈ rv)
    (hlub : ∀ y ∈ lv, y ≤ sentinel) (hrub : ∀ y ∈ rv, y ≤ sentinel) :
    ∀ (fuel : Nat) (lP ltl rP rtl : List Nat) (lv0 rv0 scan : Nat) (res : List Nat),
      lv = lP ++ lv0 :: ltl → rv = rP ++ rv0 :: rtl →
      ltl.length + rtl.length + 1 ≤ fuel →
      (∀ y ∈ lP, y ≤ scan) → (∀ y ∈ rP, y ≤ scan) →
      scan = Nat.min lv0 rv0 →
      strictAsc res → (∀ y ∈ res, y < scan) →
      (∀ x : Nat, x < scan → parityB (countLe res x) = op (memFlat lv x) (memFlat rv x)) →
      ∃ out : List Nat,
        mergeLoop op sentinel fuel scan (lP.length, lv0) (enumFrom (lP.length + 1) ltl)
          (rP.length, rv0) (enumFrom (rP.length + 1) rtl) res = some out ∧
        strictAsc out ∧ (∀ y ∈ out, y < sentinel) ∧
        (∀ x : Nat, x < sentinel →
          parityB (countLe out x) = op (memFlat lv x) (memFlat rv x)) := by
  intro fuel
  induction fuel with
  | zero =>
    intro lP ltl rP rtl lv0 rv0 scan res _ _ hfuel _ _ _ _ _ _
    omega
  | succ fuel ih =>
    intro lP ltl rP rtl lv0 rv0 scan res hlveq hrveq hfuel hlP hrP hscan hresasc hres hsem
    have hlv0mem : lv0 ∈ lv := by
      rw [hlveq]; exact List.mem_append.mpr (Or.inr (List.mem_cons_self _ _))
    have hrv0mem : rv0 ∈ rv := by
      rw [hrveq]; exact List.mem_append.mpr (Or.inr (List.mem_cons_self _ _))
    have hlle : scan ≤ lv0 := by rw [hscan]; exact Nat.min_le_left _ _
    have hrle : scan ≤ rv0 := by rw [hscan]; exact Nat.min_le_right _ _
    by_cases hterm : scan < sentinel
    · -- one more iteration
      have hone : scan = lv0 ∨ scan = rv0 := by
        rcases Nat.le_total lv0 rv0 with h | h
        · exact Or.inl (hscan.trans (Nat.min_eq_left h))
        · exact Or.inr (hscan.trans (Nat.min_eq_right h))
      have hltl_gt : ∀ y ∈ ltl, lv0 < y :=
        strictAsc_head_lt (strictAsc_suffix (hlveq ▸ hlasc))
      have hrtl_gt : ∀ y ∈ rtl, rv0 < y :=
        strictAsc_head_lt (strictAsc_suffix (hrveq ▸ hrasc))
      by_cases hladv : scan = lv0 <;> by_cases hradv : scan = rv0
      · -- both sides advance
        obtain ⟨lv1, ltl2, rfl, hlv1⟩ := side_advance hlasc hlveq hlsent hlP hladv hterm
        obtain ⟨rv1, rtl2, rfl, hrv1⟩ := side_advance hrasc hrveq hrsent hrP hradv hterm
        have hscan2 : scan < Nat.min lv1 rv1 := by
          rcases Nat.le_total lv1 rv1 with h | h
          · have h2 : Nat.min lv1 rv1 = lv1 := Nat.min_eq_left h
            rw [h2]; exact hlv1
          · have h2 : Nat.min lv1 rv1 = rv1 := Nat.min_eq_right h
            rw [h2]; exact hrv1
        have hlveq2 : lv = (lP ++ [lv0]) ++ lv1 :: ltl2 := by rw [hlveq]; simp
        have hrveq2 : rv = (rP ++ [rv0]) ++ rv1 :: rtl2 := by rw [hrveq]; simp
        have hlP2 : ∀ y ∈ lP ++ [lv0], y ≤ Nat.min lv1 rv1 := by
          intro y hy
          rcases List.mem_append.mp hy with hy | hy
          · have := hlP y hy; omega
          · simp at hy; omega
        have hrP2 : ∀ y ∈ rP ++ [rv0], y ≤ Nat.min lv1 rv1 := by
          intro y hy
          rcases List.mem_append.mp hy with hy | hy
          · have := hrP y hy; omega
          · simp at hy; omega
        have hclx : ∀ x : Nat, scan ≤ x → x < Nat.min lv1 rv1 →
            countLe lv x = lP.length + 1 := by
          intro x hx1 hx2
          have hPx : ∀ y ∈ lP ++ [lv0], y ≤ x := by
            intro y hy
            rcases List.mem_append.mp hy with hy | hy
            · exact le_trans (hlP y hy) hx1
            · simp at hy; omega
          have hxlt : x < lv1 := lt_of_lt_of_le hx2 (Nat.min_le_left _ _)
          have := countLe_window hlasc hlveq2 hPx hxlt
          simpa using this
        have hcrx : ∀ x : Nat, scan ≤ x → x < Nat.min lv1 rv1 →
            countLe rv x = rP.length + 1 := by
          intro x hx1 hx2
          have hPx : ∀ y ∈ rP ++ [rv0], y ≤ x := by
            intro y hy
            rcases List.mem_append.mp hy with hy | hy
            · exact le_trans (hrP y hy) hx1
            · simp at hy; omega
          have hxlt : x < rv1 := lt_of_lt_of_le hx2 (Nat.min_le_right _ _)
          have := countLe_window hrasc hrveq2 hPx hxlt
          simpa using this
        obtain ⟨hasc2, hlt2, hsem2⟩ := push_invariant op lv rv res scan (Nat.min lv1 rv1)
          (lP.length + 1) (rP.length + 1) hscan2 hresasc hres hsem hclx hcrx
        obtain ⟨out, hout, ho1, ho2, ho3⟩ := ih (lP ++ [lv0]) ltl2 (rP ++ [rv0]) rtl2
          lv1 rv1 (Nat.min lv1 rv1)
          (pushRes op (parityB (lP.length + 1)) (parityB (rP.length + 1)) scan res)
          hlveq2 hrveq2 (by simp at hfuel ⊢; omega) hlP2 hrP2 rfl hasc2 hlt2 hsem2
        have hlin : (decide (scan < lv0) == parityB lP.length) = parityB (lP.length + 1) := by
          rw [decide_eq_false (by omega : ¬ scan < lv0), parityB_succ]
          cases parityB lP.length <;> rfl
        have hrin : (decide (scan < rv0) == parityB rP.length) = parityB (rP.length + 1) := by
          rw [decide_eq_false (by omega : ¬ scan < rv0), parityB_succ]
          cases parityB rP.length <;> rfl
        refine ⟨out, ?_, ho1, ho2, ho3⟩
        simp only [List.length_append, List.length_cons, List.length_nil, Nat.add_zero] at hout
        simp only [mergeLoop, if_pos hterm, enumFrom, if_pos hladv, if_pos hradv, hlin, hrin]
        rw [show lP.length + 1 + 1 = lP.length + 2 from rfl] at hout
        rw [show rP.length + 1 + 1 = rP.length + 2 from rfl] at hout
        exact hout
      · -- only the left side advances
        obtain ⟨lv1, ltl2, rfl, hlv1⟩ := side_advance hlasc hlveq hlsent hlP hladv hterm
        have hrgt : scan < rv0 := by omega
        have hscan2 : scan < Nat.min lv1 rv0 := by
          rcases Nat.le_total lv1 rv0 with h | h
          · have h2 : Nat.min lv1 rv0 = lv1 := Nat.min_eq_left h
            rw [h2]; exact hlv1
          · have h2 : Nat.min lv1 rv0 = rv0 := Nat.min_eq_right h
            rw [h2]; exact hrgt
        have hlveq2 : lv = (lP ++ [lv0]) ++ lv1 :: ltl2 := by rw [hlveq]; simp
        have hlP2 : ∀ y ∈ lP ++ [lv0], y ≤ Nat.min lv1 rv0 := by
          intro y hy
          rcases List.mem_append.mp hy with hy | hy
          · have := hlP y hy; omega
          · simp at hy; omega
        have hrP2 : ∀ y ∈ rP, y ≤ Nat.min lv1 rv0 := fun y hy => by
          have := hrP y hy; omega
        have hclx : ∀ x : Nat, scan ≤ x → x < Nat.min lv1 rv0 →
            countLe lv x = lP.length + 1 := by
          intro x hx1 hx2
          have hPx : ∀ y ∈ lP ++ [lv0], y ≤ x := by
            intro y hy
            rcases List.mem_append.mp hy with hy | hy
            · exact le_trans (hlP y hy) hx1
            · simp at hy; omega
          have hxlt : x < lv1 := lt_of_lt_of_le hx2 (Nat.min_le_left _ _)
          have := countLe_window hlasc hlveq2 hPx hxlt
          simpa using this
        have hcrx : ∀ x : Nat, scan ≤ x → x < Nat.min lv1 rv0 →
            countLe rv x = rP.length := by
          intro x hx1 hx2
          have hxlt : x < rv0 := lt_of_lt_of_le hx2 (Nat.min_le_right _ _)
          exact countLe_window hrasc hrveq (fun y hy => le_trans (hrP y hy) hx1) hxlt
        obtain ⟨hasc2, hlt2, hsem2⟩ := push_invariant op lv rv res scan (Nat.min lv1 rv0)
          (lP.length + 1) rP.length hscan2 hresasc hres hsem hclx hcrx
        obtain ⟨out, hout, ho1, ho2, ho3⟩ := ih (lP ++ [lv0]) ltl2 rP rtl
          lv1 rv0 (Nat.min lv1 rv0)
          (pushRes op (parityB (lP.length + 1)) (parityB rP.length) scan res)
          hlveq2 hrveq (by simp at hfuel ⊢; omega) hlP2 hrP2 rfl hasc2 hlt2 hsem2
        have hlin : (decide (scan < lv0) == parityB lP.length) = parityB (lP.length + 1) := by
          rw [decide_eq_false (by omega : ¬ scan < lv0), parityB_succ]
          cases parityB lP.length <;> rfl
        have hrin : (decide (scan < rv0) == parityB rP.length) = parityB rP.length := by
          rw [decide_eq_true hrgt]
          cases parityB rP.length <;> rfl
        refine ⟨out, ?_, ho1, ho2, ho3⟩
        simp only [List.length_append, List.length_cons, List.length_nil, Nat.add_zero] at hout
        simp only [mergeLoop, if_pos hterm, enumFrom, if_pos hladv, if_neg hradv, hlin, hrin]
        rw [show lP.length + 1 + 1 = lP.length + 2 from rfl] at hout
        exact hout
      · -- only the right side advances
        obtain ⟨rv1, rtl2, rfl, hrv1⟩ := side_advance hrasc hrveq hrsent hrP hradv hterm
        have hlgt : scan < lv0 := by omega
        have hscan2 : scan < Nat.min lv0 rv1 := by
          rcases Nat.le_total lv0 rv1 with h | h
          · have h2 : Nat.min lv0 rv1 = lv0 := Nat.min_eq_left h
            rw [h2]; exact hlgt
          · have h2 : Nat.min lv0 rv1 = rv1 := Nat.min_eq_right h
            rw [h2]; exact hrv1
        have hrveq2 : rv = (rP ++ [rv0]) ++ rv1 :: rtl2 := by rw [hrveq]; simp
        have hrP2 : ∀ y ∈ rP ++ [rv0], y ≤ Nat.min lv0 rv1 := by
          intro y hy
          rcases List.mem_append.mp hy with hy | hy
          · have := hrP y hy; omega
          · simp at hy; omega
        have hlP2 : ∀ y ∈ lP, y ≤ Nat.min lv0 rv1 := fun y hy => by
          have := hlP y hy; omega
        have hcrx : ∀ x : Nat, scan ≤ x → x < Nat.min lv0 rv1 →
            countLe rv x = rP.length + 1 := by
          intro x hx1 hx2
          have hPx : ∀ y ∈ rP ++ [rv0], y ≤ x := by
            intro y hy
            rcases List.mem_append.mp hy with hy | hy
            · exact le_trans (hrP y hy) hx1
            · simp at hy; omega
          have hxlt : x < rv1 := lt_of_lt_of_le hx2 (Nat.min_le_right _ _)
          have := countLe_window hrasc hrveq2 hPx hxlt
          simpa using this
        have hclx : ∀ x : Nat, scan ≤ x → x < Nat.min lv0 rv1 →
            countLe lv x = lP.length := by
          intro x hx1 hx2
          have hxlt : x < lv0 := lt_of_lt_of_le hx2 (Nat.min_le_left _ _)
          exact countLe_window hlasc hlveq (fun y hy => le_trans (hlP y hy) hx1) hxlt
        obtain ⟨hasc2, hlt2, hsem2⟩ := push_invariant op lv rv res scan (Nat.min lv0 rv1)
          lP.length (rP.length + 1) hscan2 hresasc hres hsem hclx hcrx
        obtain ⟨out, hout, ho1, ho2, ho3⟩ := ih lP ltl (rP ++ [rv0]) rtl2
          lv0 rv1 (Nat.min lv0 rv1)
          (pushRes op (parityB lP.length) (parityB (rP.length + 1)) scan res)
          hlveq hrveq2 (by simp at hfuel ⊢; omega) hlP2 hrP2 rfl hasc2 hlt2 hsem2
        have hlin : (decide (scan < lv0) == parityB lP.length) = parityB lP.length := by
          rw [decide_eq_true hlgt]
          cases parityB lP.length <;> rfl
        have hrin : (decide (scan < rv0) == parityB rP.length) = parityB (rP.length + 1) := by
          rw [decide_eq_false (by omega : ¬ scan < rv0), parityB_succ]
          cases parityB rP.length <;> rfl
        refine ⟨out, ?_, ho1, ho2, ho3⟩
        simp only [List.length_append, List.length_cons, List.length_nil, Nat.add_zero] at hout
        simp only [mergeLoop, if_pos hterm, enumFrom, if_neg hladv, if_pos hradv, hlin, hrin]
        rw [show rP.length + 1 + 1 = rP.length + 2 from rfl] at hout
        exact hout
      · exact absurd hone (by simp [hladv, hradv])
    · -- the loop is finished: scan = sentinel
      have hse : scan = sentinel := by
        have := le_trans hlle (hlub lv0 hlv0mem)
        omega
      refine ⟨res, ?_, hresasc, fun y hy => hse ▸ hres y hy, fun x hx => hsem x (hse ▸ hx)⟩
      simp only [mergeLoop, if_neg hterm]

/-! ### Assembling `merge` -/

theorem parityB_eq_false {n : Nat} (h : parityB n = false) : n % 2 = 0 := by
  unfold parityB at h
  simp at h
  omega

theorem flattenL_eq_nil {l : List Interval} (h : flattenL l = []) : l = [] := by
  cases l with
  | nil => rfl
  | cons i rest => simp [flattenL] at h

theorem flattenL_marker_mem {l : List Interval} :
    ∀ i ∈ l, i.lo ∈ flattenL l ∧ wAdd1 i.hi ∈ flattenL l := by
  induction l with
  | nil => intro i hi; cases hi
  | cons a rest ih =>
    intro i hi
    rcases List.mem_cons.mp hi with rfl | hi
    · exact ⟨List.mem_cons_self _ _, List.mem_cons_of_mem _ (List.mem_cons_self _ _)⟩
    · obtain ⟨h1, h2⟩ := ih i hi
      exact ⟨List.mem_cons_of_mem _ (List.mem_cons_of_mem _ h1),
        List.mem_cons_of_mem _ (List.mem_cons_of_mem _ h2)⟩

theorem strictAsc_append_sentinel {u : List Nat} {s : Nat}
    (h : strictAsc u) (hu : ∀ y ∈ u, y < s) : strictAsc (u ++ [s]) := by
  show List.Pairwise (fun a b => a < b) (u ++ [s])
  rw [List.pairwise_append]
  exact ⟨h, List.pairwise_singleton _ _,
    fun a ha b hb => by simp at hb; subst hb; exact hu a ha⟩

theorem optMax_spec {u v : List Nat} (h : u ≠ [] ∨ v ≠ []) :
    ∃ m, optMax (listMax u) (listMax v) = some m ∧
      (∀ y ∈ u, y ≤ m) ∧ (∀ y ∈ v, y ≤ m) ∧ (m ∈ u ∨ m ∈ v) := by
  cases u with
  | nil =>
    have hv : v ≠ [] := by
      rcases h with h | h
      · exact absurd rfl h
      · exact h
    obtain ⟨m, hm, hmem, hub⟩ := listMax_spec hv
    refine ⟨m, ?_, fun y hy => absurd hy (List.not_mem_nil y), hub, Or.inr hmem⟩
    show optMax (listMax []) (listMax v) = some m
    rw [listMax, hm]
    rfl
  | cons x xs =>
    obtain ⟨mu, hmu, hmemu, hubu⟩ := listMax_spec (show x :: xs ≠ [] by simp)
    cases v with
    | nil =>
      refine ⟨mu, ?_, hubu, fun y hy => absurd hy (List.not_mem_nil y), Or.inl hmemu⟩
      rw [hmu]
      rfl
    | cons z zs =>
      obtain ⟨mv, hmv, hmemv, hubv⟩ := listMax_spec (show z :: zs ≠ [] by simp)
      refine ⟨Nat.max mu mv, ?_, ?_, ?_, ?_⟩
      · rw [hmu, hmv]
        rfl
      · intro y hy
        exact le_trans (hubu y hy) (Nat.le_max_left _ _)
      · intro y hy
        exact le_trans (hubv y hy) (Nat.le_max_right _ _)
      · rcases Nat.le_total mu mv with hle | hle
        · have h2 : Nat.max mu mv = mv := Nat.max_eq_right hle
          rw [h2]
          exact Or.inr hmemv
        · have h2 : Nat.max mu mv = mu := Nat.max_eq_left hle
          rw [h2]
          exact Or.inl hmemu

theorem merge_spec (L R : IntervalSet) (op : Bool → Bool → Bool)
    (hop : op false false = false)
    (hL : normalized L.intervals) (hR : normalized R.intervals)
    (hLb : ∀ i ∈ L.intervals, i.hi + 2 ≤ U32MAX)
    (hRb : ∀ i ∈ R.intervals, i.hi + 2 ≤ U32MAX) :
    ∃ Z : IntervalSet, L.merge R op = some Z ∧ normalized Z.intervals ∧
      (∀ i ∈ Z.intervals, i.hi + 2 ≤ U32MAX) ∧
      (∀ x : Nat, Z.memB x = op (L.memB x) (R.memB x)) := by
  have hnwL : ∀ i ∈ L.intervals, i.hi < U32MAX := fun i hi => by
    have := hLb i hi; omega
  have hnwR : ∀ i ∈ R.intervals, i.hi < U32MAX := fun i hi => by
    have := hRb i hi; omega
  by_cases hemp : (L.is_empty && R.is_empty) = true
  · -- both operands empty
    have hLR : L.intervals = [] ∧ R.intervals = [] := by
      simpa [IntervalSet.is_empty, List.length_eq_zero] using hemp
    refine ⟨L, ?_, ?_, ?_, ?_⟩
    · unfold IntervalSet.merge
      rw [if_pos hemp]
    · rw [hLR.1]
      trivial
    · rw [hLR.1]
      intro i hi
      cases hi
    · intro x
      show memL L.intervals x = op (memL L.intervals x) (memL R.intervals x)
      rw [hLR.1, hLR.2, memL_nil, hop]
  · -- the sweep runs
    have hne : L.intervals ≠ [] ∨ R.intervals ≠ [] := by
      by_contra hcon
      push_neg at hcon
      apply hemp
      simp [IntervalSet.is_empty, hcon.1, hcon.2]
    have hlfne : L.flatten ≠ [] ∨ R.flatten ≠ [] := by
      rcases hne with h | h
      · exact Or.inl fun hc => h (flattenL_eq_nil hc)
      · exact Or.inr fun hc => h (flattenL_eq_nil hc)
    obtain ⟨m, hm, hubl, hubr, hmmem⟩ := optMax_spec hlfne
    -- every marker is at most U32MAX - 1
    have hmarkL : ∀ y ∈ L.flatten, y ≤ U32MAX - 1 := by
      refine flattenL_mem_ub hnwL ?_ ?_
      · intro i hi
        have h1 := hLb i hi
        have h2 := normalized_valid hL i hi
        omega
      · intro i hi
        have h1 := hLb i hi
        omega
    have hmarkR : ∀ y ∈ R.flatten, y ≤ U32MAX - 1 := by
      refine flattenL_mem_ub hnwR ?_ ?_
      · intro i hi
        have h1 := hRb i hi
        have h2 := normalized_valid hR i hi
        omega
      · intro i hi
        have h1 := hRb i hi
        omega
    have hmub : m ≤ U32MAX - 1 := by
      rcases hmmem with h | h
      · exact hmarkL m h
      · exact hmarkR m h
    have hpos : 1 ≤ U32MAX := by decide
    have hsent : wAdd1 m = m + 1 := wAdd1_eq (show m < U32MAX by omega)
    have hsentub : m + 1 ≤ U32MAX := by omega
    -- the two padded marker sequences
    have hlasc : strictAsc (L.flatten ++ [m + 1]) :=
      strictAsc_append_sentinel (flattenL_strictAsc hL hnwL)
        (fun y hy => by have := hubl y hy; omega)
    have hrasc : strictAsc (R.flatten ++ [m + 1]) :=
      strictAsc_append_sentinel (flattenL_strictAsc hR hnwR)
        (fun y hy => by have := hubr y hy; omega)
    have hlsent : m + 1 ∈ L.flatten ++ [m + 1] :=
      List.mem_append.mpr (Or.inr (List.mem_cons_self _ _))
    have hrsent : m + 1 ∈ R.flatten ++ [m + 1] :=
      List.mem_append.mpr (Or.inr (List.mem_cons_self _ _))
    have hlub2 : ∀ y ∈ L.flatten ++ [m + 1], y ≤ m + 1 := by
      intro y hy
      rcases List.mem_append.mp hy with hy | hy
      · have := hubl y hy; omega
      · simp at hy; omega
    have hrub2 : ∀ y ∈ R.flatten ++ [m + 1], y ≤ m + 1 := by
      intro y hy
      rcases List.mem_append.mp hy with hy | hy
      · have := hubr y hy; omega
      · simp at hy; omega
    -- head decompositions
    obtain ⟨lv0, ltl, hlveq⟩ : ∃ lv0 ltl, L.flatten ++ [m + 1] = lv0 :: ltl := by
      cases hc : L.flatten ++ [m + 1] with
      | nil => simp at hc
      | cons a t => exact ⟨a, t, rfl⟩
    obtain ⟨rv0, rtl, hrveq⟩ : ∃ rv0 rtl, R.flatten ++ [m + 1] = rv0 :: rtl := by
      cases hc : R.flatten ++ [m + 1] with
      | nil => simp at hc
      | cons a t => exact ⟨a, t, rfl⟩
    have hlmin : listMin (L.flatten ++ [m + 1]) = some lv0 := by
      rw [hlveq]
      exact listMin_sorted_head fun y hy =>
        Nat.le_of_lt (strictAsc_head_lt (hlveq ▸ hlasc) y hy)
    have hrmin : listMin (R.flatten ++ [m + 1]) = some rv0 := by
      rw [hrveq]
      exact listMin_sorted_head fun y hy =>
        Nat.le_of_lt (strictAsc_head_lt (hrveq ▸ hrasc) y hy)
    -- run the sweep
    obtain ⟨out, hout, hoasc, houb, hosem⟩ :=
      mergeLoop_ok op (m + 1) (L.flatten ++ [m + 1]) (R.flatten ++ [m + 1])
        hlasc hrasc hlsent hrsent hlub2 hrub2
        ((L.flatten ++ [m + 1]).length + (R.flatten ++ [m + 1]).length)
        [] ltl [] rtl lv0 rv0 (Nat.min lv0 rv0) []
        (by simpa using hlveq) (by simpa using hrveq)
        (by
          rw [hlveq, hrveq]
          simp only [List.length_cons]
          omega)
        (by intro y hy; cases hy) (by intro y hy; cases hy) rfl
        List.Pairwise.nil (by intro y hy; cases hy)
        (by
          intro x hx
          have hxlt_l : ∀ y ∈ L.flatten ++ [m + 1], x < y := by
            intro y hy
            have h1 : lv0 ≤ y := by
              rw [hlveq] at hy
              rcases List.mem_cons.mp hy with rfl | hy
              · exact le_refl _
              · exact Nat.le_of_lt (strictAsc_head_lt (hlveq ▸ hlasc) y hy)
            have h2 : x < lv0 := lt_of_lt_of_le hx (Nat.min_le_left _ _)
            omega
          have hxlt_r : ∀ y ∈ R.flatten ++ [m + 1], x < y := by
            intro y hy
            have h1 : rv0 ≤ y := by
              rw [hrveq] at hy
              rcases List.mem_cons.mp hy with rfl | hy
              · exact le_refl _
              · exact Nat.le_of_lt (strictAsc_head_lt (hrveq ▸ hrasc) y hy)
            have h2 : x < rv0 := lt_of_lt_of_le hx (Nat.min_le_right _ _)
            omega
          unfold memFlat
          rw [countLe_nil, countLe_all_gt hxlt_l, countLe_all_gt hxlt_r]
          rw [parityB_zero, hop])
    -- the emitted boundary list has even length
    have hoeven : out.length % 2 = 0 := by
      have hx : m < m + 1 := Nat.lt_succ_self m
      have h1 := hosem m hx
      have h2 : countLe out m = out.length :=
        countLe_all_le fun y hy => by have := houb y hy; omega
      have h3 : countLe (L.flatten ++ [m + 1]) m = L.flatten.length := by
        rw [countLe_append, countLe_all_le hubl, countLe_cons, countLe_nil,
          if_neg (by omega)]
        omega
      have h4 : countLe (R.flatten ++ [m + 1]) m = R.flatten.length := by
        rw [countLe_append, countLe_all_le hubr, countLe_cons, countLe_nil,
          if_neg (by omega)]
        omega
      unfold memFlat at h1
      rw [h2, h3, h4] at h1
      rw [show L.flatten = flattenL L.intervals from rfl, flattenL_length] at h1
      rw [show R.flatten = flattenL R.intervals from rfl, flattenL_length] at h1
      rw [parityB_even (show 2 * L.intervals.length % 2 = 0 by omega),
        parityB_even (show 2 * R.intervals.length % 2 = 0 by omega), hop] at h1
      exact parityB_eq_false h1
    -- unflatten the result
    obtain ⟨pairs, hpairs, hpnorm, hpub, hplb, hpmem⟩ :=
      unflattenL_spec out hoasc
        (fun y hy => by have h1 := houb y hy; have h2 := U32MAX_lt; omega) hoeven
    have hpub2 : ∀ i ∈ pairs, i.hi + 1 ≤ m := by
      intro i hi
      exact (hpub m (fun y hy => by have := houb y hy; omega) i hi).1
    have hpbounded : boundedBy pairs U32MAX := by
      intro i hi
      have := hpub2 i hi
      omega
    have hunfl : IntervalSet.unflatten out = some ⟨pairs⟩ := by
      unfold IntervalSet.unflatten
      rw [hpairs]
      simpa [Option.bind] using listToIntervalSet_normalized hpnorm hpbounded
    refine ⟨⟨pairs⟩, ?_, hpnorm, ?_, ?_⟩
    · unfold IntervalSet.merge
      rw [if_neg hemp]
      simp only [hm, hsent, hlmin, hrmin, optMin]
      rw [hlveq, hrveq]
      simp only [enumFrom]
      rw [← hlveq, ← hrveq]
      simp only [List.length_nil] at hout
      rw [hout]
      exact hunfl
    · intro i hi
      have := hpub2 i hi
      omega
    · intro x
      show memL pairs x = op (memL L.intervals x) (memL R.intervals x)
      rcases Nat.lt_or_ge x (m + 1) with hx | hx
      · rw [hpmem x]
        have h1 := hosem x hx
        have h3 : countLe (L.flatten ++ [m + 1]) x = countLe L.flatten x := by
          rw [countLe_append, countLe_cons, countLe_nil, if_neg (by omega)]
          omega
        have h4 : countLe (R.flatten ++ [m + 1]) x = countLe R.flatten x := by
          rw [countLe_append, countLe_cons, countLe_nil, if_neg (by omega)]
          omega
        unfold memFlat at h1 ⊢
        rw [h3, h4] at h1
        rw [h1]
        have h5 : parityB (countLe L.flatten x) = memL L.intervals x := by
          have h7 := memFlat_flattenL hL hnwL x
          unfold memFlat at h7
          exact h7
        have h6 : parityB (countLe R.flatten x) = memL R.intervals x := by
          have h7 := memFlat_flattenL hR hnwR x
          unfold memFlat at h7
          exact h7
        rw [h5, h6]
      · have h1 : memL pairs x = false :=
          memL_eq_false_of_gt fun i hi => by have := hpub2 i hi; omega
        have h2 : memL L.intervals x = false := by
          refine memL_eq_false_of_gt fun i hi => ?_
          have h3 : wAdd1 i.hi ∈ L.flatten := (flattenL_marker_mem i hi).2
          have h4 := hubl _ h3
          rw [wAdd1_eq (hnwL i hi)] at h4
          omega
        have h5 : memL R.intervals x = false := by
          refine memL_eq_false_of_gt fun i hi => ?_
          have h3 : wAdd1 i.hi ∈ R.flatten := (flattenL_marker_mem i hi).2
          have h4 := hubr _ h3
          rw [wAdd1_eq (hnwR i hi)] at h4
          omega
        rw [h1, h2, h5, hop]

/-! ### Totality of `insert` on valid intervals, constructor folds -/

theorem insertLoop_bounds :
    ∀ (l : List Interval) (a b : Nat),
      (insertLoop a b l).2.1 ≤ a ∧ b ≤ (insertLoop a b l).2.2.1 := by
  intro l
  induction l with
  | nil => intro a b; exact ⟨le_refl _, le_refl _⟩
  | cons intv rest ih =>
    intro a b
    by_cases hc : wAdd1 intv.hi < a
    · rcases hr : insertLoop a b rest with ⟨kept, x, y, r⟩
      have := ih a b
      rw [hr] at this
      simp only [insertLoop, if_pos hc, hr]
      exact this
    · by_cases hbrk : wAdd1 b < intv.lo
      · simp only [insertLoop, if_neg hc, if_pos hbrk]
        exact ⟨le_refl _, le_refl _⟩
      · simp only [insertLoop, if_neg hc, if_neg hbrk]
        have := ih (min a intv.lo) (max b intv.hi)
        exact ⟨le_trans this.1 (min_le_left _ _), le_trans (le_max_left _ _) this.2⟩

theorem insert_valid_some (s : IntervalSet) (e : Interval) (hv : e.lo ≤ e.hi) :
    ∃ t : IntervalSet, s.insert e = some t := by
  rcases hr : insertLoop e.lo e.hi s.intervals with ⟨kept, a, b, r⟩
  have hb := insertLoop_bounds s.intervals e.lo e.hi
  rw [hr] at hb
  simp only at hb
  have hab : a ≤ b := le_trans hb.1 (le_trans hv hb.2)
  refine ⟨⟨List.insertionSort intvLe (kept ++ r ++ [⟨a, b⟩])⟩, ?_⟩
  simp only [IntervalSet.insert, hr, Interval.new, if_pos hab, Option.map_some']

theorem tuplesToIntervalSetAux_invalid :
    ∀ (l : List (Nat × Nat)) (acc : IntervalSet),
      (∃ p ∈ l, p.2 < p.1) → tuplesToIntervalSetAux acc l = none := by
  intro l
  induction l with
  | nil => intro acc h; obtain ⟨p, hp, _⟩ := h; cases hp
  | cons q rest ih =>
    intro acc h
    rcases q with ⟨b, e⟩
    by_cases hbe : b ≤ e
    · obtain ⟨t, ht⟩ := insert_valid_some acc ⟨b, e⟩ hbe
      rw [show tuplesToIntervalSetAux acc ((b, e) :: rest)
          = (if b ≤ e then
              match acc.insert ⟨b, e⟩ with
              | some acc2 => tuplesToIntervalSetAux acc2 rest
              | none => none
            else none) from rfl, if_pos hbe, ht]
      refine ih t ?_
      obtain ⟨p, hp, hpv⟩ := h
      rcases List.mem_cons.mp hp with rfl | hp
      · exfalso
        simp at hpv
        omega
      · exact ⟨p, hp, hpv⟩
    · rw [show tuplesToIntervalSetAux acc ((b, e) :: rest)
          = (if b ≤ e then
              match acc.insert ⟨b, e⟩ with
              | some acc2 => tuplesToIntervalSetAux acc2 rest
              | none => none
            else none) from rfl, if_neg hbe]

theorem tuplesToIntervalSetAux_spec :
    ∀ (l : List (Nat × Nat)) (acc : IntervalSet),
      normalized acc.intervals → (∀ i ∈ acc.intervals, i.hi < U32MAX) →
      (∀ p ∈ l, p.1 ≤ p.2 ∧ p.2 < U32MAX) →
      ∃ t : IntervalSet, tuplesToIntervalSetAux acc l = some t ∧
        normalized t.intervals ∧ (∀ i ∈ t.intervals, i.hi < U32MAX) ∧
        (∀ x : Nat, t.memB x
          = (acc.memB x || l.any fun p => decide (p.1 ≤ x) && decide (x ≤ p.2))) := by
  intro l
  induction l with
  | nil =>
    intro acc hn hb _
    exact ⟨acc, rfl, hn, hb, fun x => by simp⟩
  | cons q rest ih =>
    intro acc hn hb hval
    rcases q with ⟨b, e⟩
    have hq := hval (b, e) (List.mem_cons_self _ _)
    obtain ⟨t, ht, htn, htb, htm⟩ :=
      insert_spec acc ⟨b, e⟩ hn hb hq.1 hq.2
    obtain ⟨t2, ht2, ht2n, ht2b, ht2m⟩ :=
      ih t htn htb fun p hp => hval p (List.mem_cons_of_mem _ hp)
    refine ⟨t2, ?_, ht2n, ht2b, ?_⟩
    · rw [show tuplesToIntervalSetAux acc ((b, e) :: rest)
          = (if b ≤ e then
              match acc.insert ⟨b, e⟩ with
              | some acc2 => tuplesToIntervalSetAux acc2 rest
              | none => none
            else none) from rfl, if_pos hq.1, ht]
      exact ht2
    · intro x
      rw [ht2m x, htm x]
      simp only [List.any_cons]
      rw [Bool.or_assoc]
      rfl

theorem listToIntervalSetAux_invalid :
    ∀ (l : List Interval) (acc : IntervalSet),
      (∃ i ∈ l, i.hi < i.lo) → listToIntervalSetAux acc l = none := by
  intro l
  induction l with
  | nil => intro acc h; obtain ⟨p, hp, _⟩ := h; cases hp
  | cons q rest ih =>
    intro acc h
    by_cases hbe : q.isValid = true
    · have hbe2 : q.lo ≤ q.hi := of_decide_eq_true hbe
      obtain ⟨t, ht⟩ := insert_valid_some acc q hbe2
      rw [listToIntervalSetAux, if_pos hbe, ht]
      refine ih t ?_
      obtain ⟨p, hp, hpv⟩ := h
      rcases List.mem_cons.mp hp with rfl | hp
      · omega
      · exact ⟨p, hp, hpv⟩
    · rw [listToIntervalSetAux, if_neg hbe]

/-! ### Size: the `u32` fold and the true cardinality -/

theorem size_fold :
    ∀ (l : List Interval) (acc : Nat), (∀ i ∈ l, i.lo ≤ i.hi ∧ i.hi < U32MOD) →
      acc < U32MOD →
      List.foldl (fun a x => (a + x.range_size) % U32MOD) acc l
        = (acc + sizeN l) % U32MOD := by
  intro l
  induction l with
  | nil =>
    intro acc _ hacc
    show acc = (acc + sizeN []) % U32MOD
    have : sizeN [] = 0 := rfl
    rw [this, Nat.add_zero, Nat.mod_eq_of_lt hacc]
  | cons i rest ih =>
    intro acc hcond hacc
    have hiv := hcond i (List.mem_cons_self _ _)
    have hrs : i.range_size = (i.hi - i.lo + 1) % U32MOD := by
      unfold Interval.range_size
      rw [wSub_eq hiv.1 hiv.2]
    rw [List.foldl_cons,
      ih ((acc + i.range_size) % U32MOD)
        (fun j hj => hcond j (List.mem_cons_of_mem _ hj))
        (Nat.mod_lt _ (by decide)),
      hrs]
    have hsz : sizeN (i :: rest) = (i.hi - i.lo + 1) + sizeN rest := by
      simp [sizeN]
    rw [hsz]
    unfold U32MOD
    omega

theorem size_eq_sizeN {S : IntervalSet}
    (hcond : ∀ i ∈ S.intervals, i.lo ≤ i.hi ∧ i.hi < U32MOD) :
    S.size = sizeN S.intervals % U32MOD := by
  unfold IntervalSet.size
  by_cases he : S.is_empty = true
  · rw [if_pos he]
    have hnil : S.intervals = [] := by
      simpa [IntervalSet.is_empty, List.length_eq_zero] using he
    rw [hnil]
    rfl
  · rw [if_neg he]
    have := size_fold S.intervals 0 hcond (by decide)
    rwa [Nat.zero_add] at this

theorem memCard_nil : memCard [] = 0 := by
  unfold memCard
  rw [Finset.card_eq_zero, Finset.filter_eq_empty_iff]
  intro x _
  rw [memL_nil]
  simp

theorem sizeN_eq_memCard :
    ∀ {l : List Interval}, normalized l → (∀ i ∈ l, i.hi < U32MOD) →
      sizeN l = memCard l := by
  intro l
  induction l with
  | nil =>
    intro _ _
    rw [memCard_nil]
    rfl
  | cons i rest ih =>
    intro hnorm hb
    have hiv : i.lo ≤ i.hi := normalized_valid hnorm i (List.mem_cons_self _ _)
    have hiw : i.hi < U32MOD := hb i (List.mem_cons_self _ _)
    have hgap := normalized_gap_all hnorm
    have hsplit : ((Finset.range U32MOD).filter fun x => memL (i :: rest) x = true)
        = ((Finset.range U32MOD).filter fun x => Interval.memB i x = true)
          ∪ ((Finset.range U32MOD).filter fun x => memL rest x = true) := by
      rw [← Finset.filter_or]
      apply Finset.filter_congr
      intro x _
      rw [memL_cons, Bool.or_eq_true]
    have hdisj : Disjoint ((Finset.range U32MOD).filter fun x => Interval.memB i x = true)
        ((Finset.range U32MOD).filter fun x => memL rest x = true) := by
      rw [Finset.disjoint_left]
      intro x hx1 hx2
      rw [Finset.mem_filter] at hx1 hx2
      have h1 : x ≤ i.hi := by
        have := hx1.2
        simp [Interval.memB] at this
        omega
      have h2 : memL rest x = true := hx2.2
      unfold memL at h2
      rw [List.any_eq_true] at h2
      obtain ⟨j, hj, hjm⟩ := h2
      have h3 := hgap j hj
      simp [Interval.memB] at hjm
      omega
    have hIcc : ((Finset.range U32MOD).filter fun x => Interval.memB i x = true)
        = Finset.Icc i.lo i.hi := by
      apply Finset.ext
      intro x
      rw [Finset.mem_filter, Finset.mem_range, Finset.mem_Icc]
      simp [Interval.memB]
      intro h1 h2
      omega
    have hcard1 : ((Finset.range U32MOD).filter fun x => Interval.memB i x = true).card
        = i.hi - i.lo + 1 := by
      rw [hIcc, Nat.card_Icc]
      omega
    have hszc : sizeN (i :: rest) = (i.hi - i.lo + 1) + sizeN rest := by
      simp [sizeN]
    unfold memCard
    rw [hsplit, Finset.card_union_of_disjoint hdisj, hcard1, hszc,
      ih (normalized_tail hnorm) fun j hj => hb j (List.mem_cons_of_mem _ hj)]
    rfl

theorem memCard_union_inter (A B ZU ZI : IntervalSet)
    (hU : ∀ x : Nat, ZU.memB x = (A.memB x || B.memB x))
    (hI : ∀ x : Nat, ZI.memB x = (A.memB x && B.memB x)) :
    memCard ZU.intervals + memCard ZI.intervals
      = memCard A.intervals + memCard B.intervals := by
  have h1 : ((Finset.range U32MOD).filter fun x => memL ZU.intervals x = true)
      = ((Finset.range U32MOD).filter fun x => memL A.intervals x = true)
        ∪ ((Finset.range U32MOD).filter fun x => memL B.intervals x = true) := by
    rw [← Finset.filter_or]
    apply Finset.filter_congr
    intro x _
    rw [show memL ZU.intervals x = ZU.memB x from rfl, hU x, Bool.or_eq_true]
    exact Iff.rfl
  have h2 : ((Finset.range U32MOD).filter fun x => memL ZI.intervals x = true)
      = ((Finset.range U32MOD).filter fun x => memL A.intervals x = true)
        ∩ ((Finset.range U32MOD).filter fun x => memL B.intervals x = true) := by
    rw [← Finset.filter_and]
    apply Finset.filter_congr
    intro x _
    rw [show memL ZI.intervals x = ZI.memB x from rfl, hI x, Bool.and_eq_true]
    exact Iff.rfl
  unfold memCard
  rw [h1, h2]
  exact Finset.card_union_add_card_inter _ _

theorem union_inter_sizes (A B : IntervalSet)
    (hA : normalized A.intervals) (hB : normalized B.intervals)
    (hAb : ∀ i ∈ A.intervals, i.hi + 2 ≤ U32MAX)
    (hBb : ∀ i ∈ B.intervals, i.hi + 2 ≤ U32MAX)
    (hno : sizeN A.intervals + sizeN B.intervals < U32MOD) :
    ∃ ZU ZI : IntervalSet, A.union B = some ZU ∧ A.intersection B = some ZI ∧
      ZU.size + ZI.size = A.size + B.size := by
  obtain ⟨ZU, hZU, hZUn, hZUb, hZUm⟩ :=
    merge_spec A B (fun a b => a || b) rfl hA hB hAb hBb
  obtain ⟨ZI, hZI, hZIn, hZIb, hZIm⟩ :=
    merge_spec A B (fun a b => a && b) rfl hA hB hAb hBb
  have hWlt : U32MAX < U32MOD := U32MAX_lt
  have hcondA : ∀ i ∈ A.intervals, i.lo ≤ i.hi ∧ i.hi < U32MOD := fun i hi =>
    ⟨normalized_valid hA i hi, by have := hAb i hi; omega⟩
  have hcondB : ∀ i ∈ B.intervals, i.lo ≤ i.hi ∧ i.hi < U32MOD := fun i hi =>
    ⟨normalized_valid hB i hi, by have := hBb i hi; omega⟩
  have hcondU : ∀ i ∈ ZU.intervals, i.lo ≤ i.hi ∧ i.hi < U32MOD := fun i hi =>
    ⟨normalized_valid hZUn i hi, by have := hZUb i hi; omega⟩
  have hcondI : ∀ i ∈ ZI.intervals, i.lo ≤ i.hi ∧ i.hi < U32MOD := fun i hi =>
    ⟨normalized_valid hZIn i hi, by have := hZIb i hi; omega⟩
  have hsA : sizeN A.intervals = memCard A.intervals :=
    sizeN_eq_memCard hA fun i hi => (hcondA i hi).2
  have hsB : sizeN B.intervals = memCard B.intervals :=
    sizeN_eq_memCard hB fun i hi => (hcondB i hi).2
  have hsU : sizeN ZU.intervals = memCard ZU.intervals :=
    sizeN_eq_memCard hZUn fun i hi => (hcondU i hi).2
  have hsI : sizeN ZI.intervals = memCard ZI.intervals :=
    sizeN_eq_memCard hZIn fun i hi => (hcondI i hi).2
  have hkey : sizeN ZU.intervals + sizeN ZI.intervals
      = sizeN A.intervals + sizeN B.intervals := by
    rw [hsA, hsB, hsU, hsI]
    exact memCard_union_inter A B ZU ZI hZUm hZIm
  refine ⟨ZU, ZI, hZU, hZI, ?_⟩
  rw [size_eq_sizeN hcondA, size_eq_sizeN hcondB, size_eq_sizeN hcondU,
    size_eq_sizeN hcondI,
    Nat.mod_eq_of_lt (by omega), Nat.mod_eq_of_lt (by omega),
    Nat.mod_eq_of_lt (by omega), Nat.mod_eq_of_lt (by omega)]
  exact hkey

/-! ### The textual parser -/

theorem splitDash_ne_nil : ∀ tok : List Char, splitDash tok ≠ [] := by
  intro tok
  induction tok with
  | nil => simp [splitDash]
  | cons c rest ih =>
    rw [splitDash]
    by_cases hc : (c == '-') = true
    · rw [if_pos hc]
      simp
    · rw [if_neg hc]
      cases hs : splitDash rest with
      | nil => simp
      | cons p ps => simp

theorem splitDash_single :
    ∀ {tok p : List Char}, splitDash tok = [p] →
      tok.contains '-' = false ∧ p = tok := by
  intro tok
  induction tok with
  | nil =>
    intro p h
    rw [splitDash] at h
    simp at h
    exact ⟨rfl, h⟩
  | cons c rest ih =>
    intro p h
    rw [splitDash] at h
    by_cases hc : (c == '-') = true
    · rw [if_pos hc] at h
      exfalso
      have := splitDash_ne_nil rest
      cases hs : splitDash rest with
      | nil => exact this hs
      | cons q qs => rw [hs] at h; simp at h
    · rw [if_neg hc] at h
      cases hs : splitDash rest with
      | nil => exact absurd hs (splitDash_ne_nil rest)
      | cons q qs =>
        rw [hs] at h
        simp at h
        obtain ⟨hp, hqs⟩ := h
        subst hqs
        obtain ⟨h1, h2⟩ := ih hs
        refine ⟨?_, by rw [← hp, h2]⟩
        rw [List.contains_cons, h1]
        have hne2 : c ≠ '-' := by
          intro he
          exact hc (by rw [he]; exact beq_self_eq_true '-')
        have hccf : ('-' == c) = false := beq_eq_false_iff_ne.mpr fun he => hne2 he.symm
        rw [hccf]
        rfl

theorem splitDash_pair :
    ∀ {tok p q : List Char} {rest : List (List Char)},
      splitDash tok = p :: q :: rest → tok.contains '-' = true := by
  intro tok
  induction tok with
  | nil =>
    intro p q rest h
    rw [splitDash] at h
    simp at h
  | cons c t ih =>
    intro p q rest h
    rw [splitDash] at h
    by_cases hc : (c == '-') = true
    · rw [List.contains_cons]
      have hcc : ('-' == c) = true := by
        rw [eq_of_beq hc]
        exact beq_self_eq_true '-'
      rw [hcc]
      rfl
    · rw [if_neg hc] at h
      cases hs : splitDash t with
      | nil => exact absurd hs (splitDash_ne_nil t)
      | cons p0 ps =>
        rw [hs] at h
        simp at h
        obtain ⟨_, hps⟩ := h
        rw [List.contains_cons]
        cases ps with
        | nil => simp at hps
        | cons q0 qs =>
          rw [ih hs]
          rw [Bool.or_true]

theorem parseU32_digits {p : List Char} (hne : p ≠ [])
    (hd : p.all (fun c => c.isDigit) = true)
    (hv : digitsValAux 0 p < U32MOD) :
    parseU32 p = some (digitsValAux 0 p) := by
  have hsp : stripPlus p = p := by
    cases p with
    | nil => rfl
    | cons c rest =>
      rw [stripPlus, if_neg]
      intro he
      subst he
      simp [List.all_cons, Char.isDigit] at hd
  rw [parseU32, hsp, if_neg (by simpa using hne), if_pos hd, if_pos hv]

theorem parseToken_good (acc : IntervalSet) (tok : List Char)
    (hg : goodTokenB tok = true)
    (hn : normalized acc.intervals) (hb : ∀ i ∈ acc.intervals, i.hi + 2 ≤ U32MAX) :
    ∃ t : IntervalSet, parseToken acc tok = some t ∧ normalized t.intervals ∧
      (∀ i ∈ t.intervals, i.hi + 2 ≤ U32MAX) ∧
      ∀ x : Nat, t.memB x = (acc.memB x || (tokInterval tok).memB x) := by
  have hWpos : 2 ≤ U32MAX := by decide
  cases hsd : splitDash tok with
  | nil => exact absurd hsd (splitDash_ne_nil tok)
  | cons p ps =>
    cases ps with
    | nil =>
      -- a plain numeral
      rw [goodTokenB, hsd] at hg
      simp only [Bool.and_eq_true, Bool.not_eq_true', decide_eq_true_iff] at hg
      obtain ⟨⟨hpne, hpd⟩, hpv⟩ := hg
      obtain ⟨hcont, hptok⟩ := splitDash_single hsd
      subst hptok
      have hvlt : digitsValAux 0 p < U32MOD := by
        have := U32MAX_lt
        omega
      have hparse := parseU32_digits (by simpa using hpne) hpd hvlt
      obtain ⟨t, ht, htn, htb, htm⟩ :=
        merge_spec acc ⟨[⟨digitsValAux 0 p, digitsValAux 0 p⟩]⟩ (fun a b => a || b) rfl
          hn (by simp [normalized]) hb
          (by
            intro i hi
            simp at hi
            subst hi
            show digitsValAux 0 p + 2 ≤ U32MAX
            omega)
      refine ⟨t, ?_, htn, fun i hi => htb i hi, ?_⟩
      · rw [parseToken, if_neg (show ¬(p.contains '-') = true by
            rw [hcont]; exact Bool.false_ne_true), hparse]
        show (Interval.new (digitsValAux 0 p) (digitsValAux 0 p)).bind _ = some t
        rw [Interval.new, if_pos (le_refl _)]
        show (intervalToIntervalSet _).bind _ = some t
        rw [intervalToIntervalSet, if_pos (by simp [Interval.isValid])]
        exact ht
      · intro x
        rw [htm x]
        unfold tokInterval
        rw [hsd]
        show _ = (acc.memB x || Interval.memB _ x)
        congr 1
        show memL [⟨digitsValAux 0 p, digitsValAux 0 p⟩] x = _
        rw [memL_cons, memL_nil, Bool.or_false]
    | cons q qs =>
      cases qs with
      | cons _ _ =>
        rw [goodTokenB, hsd] at hg
        simp at hg
      | nil =>
        -- a dash pair
        rw [goodTokenB, hsd] at hg
        simp only [Bool.and_eq_true, Bool.not_eq_true', decide_eq_true_iff] at hg
        obtain ⟨⟨⟨⟨hpne, hpd⟩, hqne, hqd⟩, hpq⟩, hqv⟩ := hg
        have hcont := splitDash_pair hsd
        have hvplt : digitsValAux 0 p < U32MOD := by
          have := U32MAX_lt
          omega
        have hvqlt : digitsValAux 0 q < U32MOD := by
          have := U32MAX_lt
          omega
        have hparsep := parseU32_digits (by simpa using hpne) hpd hvplt
        have hparseq := parseU32_digits (by simpa using hqne) hqd hvqlt
        obtain ⟨t, ht, htn, htb, htm⟩ :=
          merge_spec acc ⟨[⟨digitsValAux 0 p, digitsValAux 0 q⟩]⟩ (fun a b => a || b) rfl
            hn (by simp [normalized]; omega) hb
            (by
              intro i hi
              simp at hi
              subst hi
              show digitsValAux 0 q + 2 ≤ U32MAX
              omega)
        refine ⟨t, ?_, htn, fun i hi => htb i hi, ?_⟩
        · rw [parseToken, if_pos hcont, hsd]
          rw [show parseBounds [p, q]
              = (parseU32 p).bind fun v =>
                  (parseBounds [q]).map fun vs => v :: vs from rfl]
          rw [hparsep]
          rw [show parseBounds [q]
              = (parseU32 q).bind fun v =>
                  (parseBounds []).map fun vs => v :: vs from rfl]
          rw [hparseq]
          show (Interval.new (digitsValAux 0 p) (digitsValAux 0 q)).bind _ = some t
          rw [Interval.new, if_pos hpq]
          show (intervalToIntervalSet _).bind _ = some t
          rw [intervalToIntervalSet, if_pos (by simp [Interval.isValid]; omega)]
          exact ht
        · intro x
          rw [htm x]
          unfold tokInterval
          rw [hsd]
          show _ = (acc.memB x || Interval.memB _ x)
          congr 1
          show memL [⟨digitsValAux 0 p, digitsValAux 0 q⟩] x = _
          rw [memL_cons, memL_nil, Bool.or_false]

theorem parseFold_spec :
    ∀ (toks : List (List Char)) (acc : IntervalSet),
      (∀ tok ∈ toks, goodTokenB tok = true) →
      normalized acc.intervals → (∀ i ∈ acc.intervals, i.hi + 2 ≤ U32MAX) →
      ∃ t : IntervalSet, parseFold acc toks = some t ∧ normalized t.intervals ∧
        (∀ i ∈ t.intervals, i.hi + 2 ≤ U32MAX) ∧
        ∀ x : Nat, t.memB x
          = (acc.memB x || toks.any fun tok => (tokInterval tok).memB x) := by
  intro toks
  induction toks with
  | nil =>
    intro acc _ hn hb
    exact ⟨acc, rfl, hn, hb, fun x => by simp⟩
  | cons tok rest ih =>
    intro acc hg hn hb
    obtain ⟨t, ht, htn, htb, htm⟩ :=
      parseToken_good acc tok (hg tok (List.mem_cons_self _ _)) hn hb
    obtain ⟨t2, ht2, ht2n, ht2b, ht2m⟩ :=
      ih t (fun u hu => hg u (List.mem_cons_of_mem _ hu)) htn htb
    refine ⟨t2, ?_, ht2n, ht2b, ?_⟩
    · rw [parseFold, ht]
      exact ht2
    · intro x
      rw [ht2m x, htm x, List.any_cons, Bool.or_assoc]

theorem stringToIntervalSet_spec (s : List Char)
    (hg : ∀ tok ∈ splitWs s, goodTokenB tok = true) :
    ∃ t : IntervalSet, stringToIntervalSet s = some t ∧ normalized t.intervals ∧
      ∀ x : Nat, t.memB x = (splitWs s).any fun tok => (tokInterval tok).memB x := by
  obtain ⟨t, ht, htn, _, htm⟩ :=
    parseFold_spec (splitWs s) IntervalSet.empty hg trivial
      (by intro i hi; cases hi)
  refine ⟨t, ht, htn, fun x => ?_⟩
  rw [htm x]
  show (memL [] x || _) = _
  rw [memL_nil, Bool.false_or]

/-! ### Remaining helpers -/

theorem listToIntervalSetAux_norm :
    ∀ (l : List Interval) (acc : IntervalSet),
      normalized acc.intervals → (∀ i ∈ acc.intervals, i.hi < U32MAX) →
      (∀ i ∈ l, i.lo ≤ i.hi ∧ i.hi < U32MAX) →
      ∃ t : IntervalSet, listToIntervalSetAux acc l = some t ∧
        normalized t.intervals ∧ (∀ i ∈ t.intervals, i.hi < U32MAX) := by
  intro l
  induction l with
  | nil =>
    intro acc hn hb _
    exact ⟨acc, rfl, hn, hb⟩
  | cons q rest ih =>
    intro acc hn hb hval
    have hq := hval q (List.mem_cons_self _ _)
    obtain ⟨t, ht, htn, htb, _⟩ := insert_spec acc q hn hb hq.1 hq.2
    obtain ⟨t2, ht2, ht2n, ht2b⟩ :=
      ih t htn htb fun i hi => hval i (List.mem_cons_of_mem _ hi)
    refine ⟨t2, ?_, ht2n, ht2b⟩
    rw [listToIntervalSetAux,
      if_pos (show q.isValid = true from decide_eq_true hq.1), ht]
    exact ht2

theorem tuplesToIntervalSetAux_allvalid :
    ∀ (l : List (Nat × Nat)) (acc : IntervalSet), (∀ p ∈ l, p.1 ≤ p.2) →
      ∃ t : IntervalSet, tuplesToIntervalSetAux acc l = some t := by
  intro l
  induction l with
  | nil => intro acc _; exact ⟨acc, rfl⟩
  | cons q rest ih =>
    intro acc h
    rcases q with ⟨b, e⟩
    have hbe : b ≤ e := h (b, e) (List.mem_cons_self _ _)
    obtain ⟨t, ht⟩ := insert_valid_some acc ⟨b, e⟩ hbe
    obtain ⟨t2, ht2⟩ := ih t fun p hp => h p (List.mem_cons_of_mem _ hp)
    refine ⟨t2, ?_⟩
    rw [show tuplesToIntervalSetAux acc ((b, e) :: rest)
        = (if b ≤ e then
            match acc.insert ⟨b, e⟩ with
            | some acc2 => tuplesToIntervalSetAux acc2 rest
            | none => none
          else none) from rfl, if_pos hbe, ht]
    exact ht2

theorem size_fold_lt :
    ∀ (l : List Interval) (acc : Nat), acc < U32MOD →
      List.foldl (fun a x => (a + x.range_size) % U32MOD) acc l < U32MOD := by
  intro l
  induction l with
  | nil => intro acc hacc; exact hacc
  | cons i rest ih =>
    intro acc _
    exact ih _ (Nat.mod_lt _ (by decide))

theorem size_lt_mod (S : IntervalSet) : S.size < U32MOD := by
  unfold IntervalSet.size
  by_cases he : S.is_empty = true
  · rw [if_pos he]
    decide
  · rw [if_neg he]
    exact size_fold_lt S.intervals 0 (by decide)

theorem memCard_whole {l : List Interval} (h : Interval.whole ∈ l) :
    memCard l = U32MOD := by
  unfold memCard
  rw [Finset.filter_eq_self.mpr, Finset.card_range]
  intro x hx
  rw [Finset.mem_range] at hx
  unfold memL
  rw [List.any_eq_true]
  refine ⟨Interval.whole, h, ?_⟩
  have hWeq : U32MOD = U32MAX + 1 := rfl
  simp [Interval.memB, Interval.whole]
  omega

/-! ## The claims -/

/-- C1, counterexample to the claim as stated: the operands
`{[0, u32::MAX]}` and `{[5, 10]}` are both normalized, `7` belongs to both,
yet `intersection` returns the empty set (the flatten marker `hi + 1` wraps
to `0`), so the pointwise semantics does not hold for every normalized pair. -/
theorem C1_counterexample :
    IntervalSet.intersection ⟨[⟨0, U32MAX⟩]⟩ ⟨[⟨5, 10⟩]⟩ = some ⟨[]⟩ ∧
    normalized [(⟨0, U32MAX⟩ : Interval)] ∧ normalized [(⟨5, 10⟩ : Interval)] ∧
    IntervalSet.memB ⟨[⟨0, U32MAX⟩]⟩ 7 = true ∧
    IntervalSet.memB ⟨[⟨5, 10⟩]⟩ 7 = true ∧
    IntervalSet.memB ⟨[]⟩ 7 = false := by decide

/-- C1 (amended): for normalized operands whose upper bounds stay at least two
below `u32::MAX` (so no flatten marker and no sentinel wraps), the four algebra
operations built on the single shared merge sweep compute exactly the pointwise
boolean-combinator semantics. -/
theorem C1_merge_pointwise (L R : IntervalSet)
    (hL : normalized L.intervals) (hR : normalized R.intervals)
    (hLb : ∀ i ∈ L.intervals, i.hi + 2 ≤ U32MAX)
    (hRb : ∀ i ∈ R.intervals, i.hi + 2 ≤ U32MAX) :
    (∃ Z : IntervalSet, L.union R = some Z ∧
      ∀ x : Nat, Z.memB x = (L.memB x || R.memB x)) ∧
    (∃ Z : IntervalSet, L.intersection R = some Z ∧
      ∀ x : Nat, Z.memB x = (L.memB x && R.memB x)) ∧
    (∃ Z : IntervalSet, L.difference R = some Z ∧
      ∀ x : Nat, Z.memB x = (L.memB x && !R.memB x)) ∧
    (∃ Z : IntervalSet, L.symetric_difference R = some Z ∧
      ∀ x : Nat, Z.memB x = Bool.xor (L.memB x) (R.memB x)) := by
  obtain ⟨Z1, h1, _, _, hm1⟩ := merge_spec L R (fun a b => a || b) rfl hL hR hLb hRb
  obtain ⟨Z2, h2, _, _, hm2⟩ := merge_spec L R (fun a b => a && b) rfl hL hR hLb hRb
  obtain ⟨Z3, h3, _, _, hm3⟩ := merge_spec L R (fun a b => a && !b) rfl hL hR hLb hRb
  obtain ⟨Z4, h4, _, _, hm4⟩ := merge_spec L R (fun a b => Bool.xor a b) rfl hL hR hLb hRb
  exact ⟨⟨Z1, h1, hm1⟩, ⟨Z2, h2, hm2⟩, ⟨Z3, h3, hm3⟩, ⟨Z4, h4, hm4⟩⟩

/-- Witness for C1 at concrete normalized operands. -/
theorem C1_witness :
    (normalized [(⟨0, 4⟩ : Interval), ⟨10, 20⟩] ∧ normalized [(⟨3, 12⟩ : Interval)] ∧
      (∀ i ∈ [(⟨0, 4⟩ : Interval), ⟨10, 20⟩], i.hi + 2 ≤ U32MAX) ∧
      (∀ i ∈ [(⟨3, 12⟩ : Interval)], i.hi + 2 ≤ U32MAX)) ∧
    ((∃ Z : IntervalSet, IntervalSet.union ⟨[⟨0, 4⟩, ⟨10, 20⟩]⟩ ⟨[⟨3, 12⟩]⟩ = some Z ∧
      ∀ x : Nat, Z.memB x
        = (IntervalSet.memB ⟨[⟨0, 4⟩, ⟨10, 20⟩]⟩ x || IntervalSet.memB ⟨[⟨3, 12⟩]⟩ x)) ∧
    (∃ Z : IntervalSet, IntervalSet.intersection ⟨[⟨0, 4⟩, ⟨10, 20⟩]⟩ ⟨[⟨3, 12⟩]⟩ = some Z ∧
      ∀ x : Nat, Z.memB x
        = (IntervalSet.memB ⟨[⟨0, 4⟩, ⟨10, 20⟩]⟩ x && IntervalSet.memB ⟨[⟨3, 12⟩]⟩ x)) ∧
    (∃ Z : IntervalSet, IntervalSet.difference ⟨[⟨0, 4⟩, ⟨10, 20⟩]⟩ ⟨[⟨3, 12⟩]⟩ = some Z ∧
      ∀ x : Nat, Z.memB x
        = (IntervalSet.memB ⟨[⟨0, 4⟩, ⟨10, 20⟩]⟩ x && !IntervalSet.memB ⟨[⟨3, 12⟩]⟩ x)) ∧
    (∃ Z : IntervalSet, IntervalSet.symetric_difference ⟨[⟨0, 4⟩, ⟨10, 20⟩]⟩ ⟨[⟨3, 12⟩]⟩ = some Z ∧
      ∀ x : Nat, Z.memB x
        = Bool.xor (IntervalSet.memB ⟨[⟨0, 4⟩, ⟨10, 20⟩]⟩ x) (IntervalSet.memB ⟨[⟨3, 12⟩]⟩ x))) :=
  ⟨⟨by decide, by decide, by decide, by decide⟩,
    C1_merge_pointwise ⟨[⟨0, 4⟩, ⟨10, 20⟩]⟩ ⟨[⟨3, 12⟩]⟩
      (by decide) (by decide) (by decide) (by decide)⟩

/-- C2, counterexample to the claim as stated: inserting the valid interval
`[5, 10]` into the normalized set `{[0, u32::MAX]}` computes `u32::MAX + 1`
with wrapping, so the gap test spuriously fires and the result
`{[0, u32::MAX], [5, 10]}` violates the normalization invariant. -/
theorem C2_counterexample :
    IntervalSet.insert ⟨[⟨0, U32MAX⟩]⟩ ⟨5, 10⟩ = some ⟨[⟨0, U32MAX⟩, ⟨5, 10⟩]⟩ ∧
    normalized [(⟨0, U32MAX⟩ : Interval)] ∧ (5 : Nat) ≤ 10 ∧
    ¬ normalized [(⟨0, U32MAX⟩ : Interval), ⟨5, 10⟩] := by decide

/-- C2 (amended): every public operation produces a normalized set, provided
every interval involved keeps away from the `u32` domain maximum (upper bounds
below `u32::MAX` for `insert` and the collection constructors, at least two
below for the sentinel of the merge-based operations and for the values of
textual tokens): the empty constructor, `insert`, the two collection
constructors, the textual constructor, and the four algebra operations. -/
theorem C2_normalization :
    normalized (IntervalSet.empty).intervals ∧
    (∀ (s : IntervalSet) (e : Interval), normalized s.intervals →
      (∀ i ∈ s.intervals, i.hi < U32MAX) → e.lo ≤ e.hi → e.hi < U32MAX →
      ∃ t : IntervalSet, s.insert e = some t ∧ normalized t.intervals) ∧
    (∀ l : List (Nat × Nat), (∀ p ∈ l, p.1 ≤ p.2 ∧ p.2 < U32MAX) →
      ∃ t : IntervalSet, tuplesToIntervalSet l = some t ∧ normalized t.intervals) ∧
    (∀ l : List Interval, (∀ i ∈ l, i.lo ≤ i.hi ∧ i.hi < U32MAX) →
      ∃ t : IntervalSet, listToIntervalSet l = some t ∧ normalized t.intervals) ∧
    (∀ s : List Char, (∀ tok ∈ splitWs s, goodTokenB tok = true) →
      ∃ t : IntervalSet, stringToIntervalSet s = some t ∧ normalized t.intervals) ∧
    (∀ L R : IntervalSet, normalized L.intervals → normalized R.intervals →
      (∀ i ∈ L.intervals, i.hi + 2 ≤ U32MAX) →
      (∀ i ∈ R.intervals, i.hi + 2 ≤ U32MAX) →
      (∃ Z : IntervalSet, L.union R = some Z ∧ normalized Z.intervals) ∧
      (∃ Z : IntervalSet, L.intersection R = some Z ∧ normalized Z.intervals) ∧
      (∃ Z : IntervalSet, L.difference R = some Z ∧ normalized Z.intervals) ∧
      (∃ Z : IntervalSet, L.symetric_difference R = some Z ∧ normalized Z.intervals)) := by
  refine ⟨trivial, ?_, ?_, ?_, ?_, ?_⟩
  · intro s e hn hb hv he
    obtain ⟨t, ht, htn, _, _⟩ := insert_spec s e hn hb hv he
    exact ⟨t, ht, htn⟩
  · intro l hl
    obtain ⟨t, ht, htn, _, _⟩ :=
      tuplesToIntervalSetAux_spec l IntervalSet.empty trivial
        (by intro i hi; cases hi) hl
    exact ⟨t, ht, htn⟩
  · intro l hl
    obtain ⟨t, ht, htn, _⟩ :=
      listToIntervalSetAux_norm l IntervalSet.empty trivial
        (by intro i hi; cases hi) hl
    exact ⟨t, ht, htn⟩
  · intro s hs
    obtain ⟨t, ht, htn, _⟩ := stringToIntervalSet_spec s hs
    exact ⟨t, ht, htn⟩
  · intro L R hL hR hLb hRb
    obtain ⟨Z1, h1, hn1, _, _⟩ := merge_spec L R (fun a b => a || b) rfl hL hR hLb hRb
    obtain ⟨Z2, h2, hn2, _, _⟩ := merge_spec L R (fun a b => a && b) rfl hL hR hLb hRb
    obtain ⟨Z3, h3, hn3, _, _⟩ := merge_spec L R (fun a b => a && !b) rfl hL hR hLb hRb
    obtain ⟨Z4, h4, hn4, _, _⟩ :=
      merge_spec L R (fun a b => Bool.xor a b) rfl hL hR hLb hRb
    exact ⟨⟨Z1, h1, hn1⟩, ⟨Z2, h2, hn2⟩, ⟨Z3, h3, hn3⟩, ⟨Z4, h4, hn4⟩⟩

/-- Witness for C2: insertion bridging `{[0,0],[2,2]}` with `[1,1]`. -/
theorem C2_witness :
    (normalized [(⟨0, 0⟩ : Interval), ⟨2, 2⟩] ∧
      (∀ i ∈ [(⟨0, 0⟩ : Interval), ⟨2, 2⟩], i.hi < U32MAX) ∧
      (1 : Nat) ≤ 1 ∧ (1 : Nat) < U32MAX) ∧
    (∃ t : IntervalSet, IntervalSet.insert ⟨[⟨0, 0⟩, ⟨2, 2⟩]⟩ ⟨1, 1⟩ = some t ∧
      normalized t.intervals) :=
  ⟨⟨by decide, by decide, by decide, by decide⟩,
    C2_normalization.2.1 ⟨[⟨0, 0⟩, ⟨2, 2⟩]⟩ ⟨1, 1⟩
      (by decide) (by decide) (by decide) (by decide)⟩

/-- C3: `max()` of the non-empty set `{[5,5]}` is `None`, because the running
maximum starts at `0` and the strict comparison `(hi - lo) > 0` never fires for
a degenerate interval — contradicting the claim (and the function's own doc)
that `None` is returned only for the empty set. -/
theorem C3_max_bug :
    IntervalSet.max ⟨[⟨5, 5⟩]⟩ = none ∧
    IntervalSet.is_empty ⟨[⟨5, 5⟩]⟩ = false := by decide

/-- C4: with an operand reaching the domain maximum, the flatten exit marker
`hi + 1` wraps to `0` (`wAdd1 U32MAX = 0`), and `union({[0,u32::MAX]}, {[5,10]})`
returns the non-normalized junk `{[0,u32::MAX],[5,10]}` instead of
`{[0,u32::MAX]}` — the merge-based operations do wrap, contradicting the claim. -/
theorem C4_overflow_bug :
    wAdd1 U32MAX = 0 ∧
    IntervalSet.union ⟨[⟨0, U32MAX⟩]⟩ ⟨[⟨5, 10⟩]⟩
      = some ⟨[⟨0, U32MAX⟩, ⟨5, 10⟩]⟩ ∧
    ¬ normalized [(⟨0, U32MAX⟩ : Interval), ⟨5, 10⟩] := by decide

/-- C5: inserting the valid interval `[3, u32::MAX]` into `{[5,10]}` computes
`element.hi + 1 = u32::MAX + 1`, which overflows `u32` (wrapping to `0`), so
the break test spuriously fires and the result `{[3,u32::MAX],[5,10]}` is not
normalized — the gap tests do overflow, contradicting the claim. -/
theorem C5_insert_overflow_bug :
    wAdd1 U32MAX = 0 ∧ (3 : Nat) ≤ U32MAX ∧
    IntervalSet.insert ⟨[⟨5, 10⟩]⟩ ⟨3, U32MAX⟩
      = some ⟨[⟨3, U32MAX⟩, ⟨5, 10⟩]⟩ ∧
    ¬ normalized [(⟨3, U32MAX⟩ : Interval), ⟨5, 10⟩] := by decide

/-- C6, counterexample to the claim as stated: the malformed dash token
`"1-2-3"` parses successfully to `{[1,2]}` (components beyond the second are
ignored), and the wellformed token `"4294967295"` parses to the empty set
(the sweep wraps at the domain maximum) instead of `{[u32::MAX, u32::MAX]}`. -/
theorem C6_counterexample :
    stringToIntervalSet ['1', '-', '2', '-', '3'] = some ⟨[⟨1, 2⟩]⟩ ∧
    stringToIntervalSet ['4', '2', '9', '4', '9', '6', '7', '2', '9', '5']
      = some ⟨[]⟩ := by decide

/-- C6 (amended): parsing succeeds on every whitespace-separated sequence of
tokens of the forms `n` and `lo-hi` (decimal numerals, `lo ≤ hi`, values at
most `U32MAX - 2` so the union sweep cannot wrap), producing the normalized
set whose members are exactly the integers covered by some token — hence the
result is independent of token order and overlap. -/
theorem C6_parse_wellformed (s : List Char)
    (hg : ∀ tok ∈ splitWs s, goodTokenB tok = true) :
    ∃ t : IntervalSet, stringToIntervalSet s = some t ∧ normalized t.intervals ∧
      ∀ x : Nat, t.memB x = (splitWs s).any fun tok => (tokInterval tok).memB x :=
  stringToIntervalSet_spec s hg

/-- Witness for C6 on `"3-4 6 7-19"`. -/
theorem C6_witness :
    (∀ tok ∈ splitWs ['3', '-', '4', ' ', '6', ' ', '7', '-', '1', '9'],
      goodTokenB tok = true) ∧
    (∃ t : IntervalSet,
      stringToIntervalSet ['3', '-', '4', ' ', '6', ' ', '7', '-', '1', '9'] = some t ∧
      normalized t.intervals ∧
      ∀ x : Nat, t.memB x
        = (splitWs ['3', '-', '4', ' ', '6', ' ', '7', '-', '1', '9']).any
            fun tok => (tokInterval tok).memB x) :=
  ⟨by decide, C6_parse_wellformed ['3', '-', '4', ' ', '6', ' ', '7', '-', '1', '9']
    (by decide)⟩

/-- C7: `Interval::new(lo, hi)` fails exactly when `lo > hi` and otherwise
returns `[lo, hi]`; the collection constructors fail the same way whenever an
invalid element occurs, succeed when all elements are valid, and — being pure
value constructions — leave every other set untouched. -/
theorem C7_invalid_range :
    ∀ lo hi : Nat,
      (Interval.new lo hi = none ↔ hi < lo) ∧
      (lo ≤ hi → Interval.new lo hi = some ⟨lo, hi⟩ ∧
        Interval.get_inf ⟨lo, hi⟩ = lo ∧ Interval.get_sup ⟨lo, hi⟩ = hi) ∧
      (∀ l : List (Nat × Nat), (lo, hi) ∈ l → hi < lo →
        tuplesToIntervalSet l = none) ∧
      (∀ l : List Interval, (⟨lo, hi⟩ : Interval) ∈ l → hi < lo →
        listToIntervalSet l = none) ∧
      (∀ l : List (Nat × Nat), (∀ p ∈ l, p.1 ≤ p.2) →
        ∃ t : IntervalSet, tuplesToIntervalSet l = some t) := by
  intro lo hi
  refine ⟨?_, ?_, ?_, ?_, ?_⟩
  · unfold Interval.new
    by_cases h : lo ≤ hi
    · rw [if_pos h]
      simp
      omega
    · rw [if_neg h]
      simp
      omega
  · intro h
    unfold Interval.new
    rw [if_pos h]
    exact ⟨rfl, rfl, rfl⟩
  · intro l hmem hlt
    exact tuplesToIntervalSetAux_invalid l IntervalSet.empty ⟨(lo, hi), hmem, hlt⟩
  · intro l hmem hlt
    exact listToIntervalSetAux_invalid l IntervalSet.empty ⟨⟨lo, hi⟩, hmem, hlt⟩
  · intro l hval
    exact tuplesToIntervalSetAux_allvalid l IntervalSet.empty hval

/-- Witness for C7 at `lo = 7`, `hi = 3` and concrete lists. -/
theorem C7_witness :
    (Interval.new 7 3 = none ↔ 3 < 7) ∧
    tuplesToIntervalSet [(1, 2), (7, 3)] = none ∧
    (∃ t : IntervalSet, tuplesToIntervalSet [(1, 2), (5, 9)] = some t) :=
  ⟨(C7_invalid_range 7 3).1,
    (C7_invalid_range 7 3).2.2.1 [(1, 2), (7, 3)] (by decide) (by decide),
    (C7_invalid_range 7 3).2.2.2.2 [(1, 2), (5, 9)] (by decide)⟩

/-- C8: for every normalized `IntervalSet` over `u32` bounds,
`unflatten(flatten(S)) = S` (in wrapping `u32` arithmetic the round trip holds
even when an upper bound equals `u32::MAX`, since `x ↦ x+1` and `x ↦ x-1`
cancel modulo `2^32`). -/
theorem C8_roundtrip (S : IntervalSet)
    (h : normalized S.intervals) (hb : boundedBy S.intervals U32MAX) :
    IntervalSet.unflatten S.flatten = some S :=
  unflatten_flatten h hb

/-- Witness for C8 on `{[0,10],[15,20]}`. -/
theorem C8_witness :
    (normalized [(⟨0, 10⟩ : Interval), ⟨15, 20⟩] ∧
      boundedBy [(⟨0, 10⟩ : Interval), ⟨15, 20⟩] U32MAX) ∧
    IntervalSet.unflatten (IntervalSet.flatten ⟨[⟨0, 10⟩, ⟨15, 20⟩]⟩)
      = some ⟨[⟨0, 10⟩, ⟨15, 20⟩]⟩ :=
  ⟨⟨by decide, by decide⟩, C8_roundtrip ⟨[⟨0, 10⟩, ⟨15, 20⟩]⟩ (by decide) (by decide)⟩

/-- C9: for normalized operands whose bounds keep every `u32` computation of
the sweep and of `size()` from overflowing, the sizes satisfy
`size(union(A,B)) + size(intersection(A,B)) = size(A) + size(B)`. -/
theorem C9_size_additivity (A B : IntervalSet)
    (hA : normalized A.intervals) (hB : normalized B.intervals)
    (hAb : ∀ i ∈ A.intervals, i.hi + 2 ≤ U32MAX)
    (hBb : ∀ i ∈ B.intervals, i.hi + 2 ≤ U32MAX)
    (hno : sizeN A.intervals + sizeN B.intervals < U32MOD) :
    ∃ ZU ZI : IntervalSet, A.union B = some ZU ∧ A.intersection B = some ZI ∧
      ZU.size + ZI.size = A.size + B.size :=
  union_inter_sizes A B hA hB hAb hBb hno

/-- Witness for C9 on `{[0,10]}` and `{[5,20]}`. -/
theorem C9_witness :
    (normalized [(⟨0, 10⟩ : Interval)] ∧ normalized [(⟨5, 20⟩ : Interval)] ∧
      (∀ i ∈ [(⟨0, 10⟩ : Interval)], i.hi + 2 ≤ U32MAX) ∧
      (∀ i ∈ [(⟨5, 20⟩ : Interval)], i.hi + 2 ≤ U32MAX) ∧
      sizeN [(⟨0, 10⟩ : Interval)] + sizeN [(⟨5, 20⟩ : Interval)] < U32MOD) ∧
    (∃ ZU ZI : IntervalSet,
      IntervalSet.union ⟨[⟨0, 10⟩]⟩ ⟨[⟨5, 20⟩]⟩ = some ZU ∧
      IntervalSet.intersection ⟨[⟨0, 10⟩]⟩ ⟨[⟨5, 20⟩]⟩ = some ZI ∧
      ZU.size + ZI.size
        = IntervalSet.size ⟨[⟨0, 10⟩]⟩ + IntervalSet.size ⟨[⟨5, 20⟩]⟩) :=
  ⟨⟨by decide, by decide, by decide, by decide, by decide⟩,
    C9_size_additivity ⟨[⟨0, 10⟩]⟩ ⟨[⟨5, 20⟩]⟩
      (by decide) (by decide) (by decide) (by decide) (by decide)⟩

/-- C10: `range_size()` of `Interval::whole() = [0, u32::MAX]` wraps to `0`
in `u32` arithmetic rather than the true count `2^32`, and the `size()` of any
set containing `[0, u32::MAX]` (always below `2^32`) differs from the set's
true cardinality `2^32`. -/
theorem C10_range_size_wrap :
    Interval.range_size Interval.whole = 0 ∧ U32MOD = 2 ^ 32 ∧
    (∀ S : IntervalSet, Interval.whole ∈ S.intervals →
      S.size < U32MOD ∧ memCard S.intervals = U32MOD ∧
      S.size ≠ memCard S.intervals) := by
  refine ⟨by decide, by decide, ?_⟩
  intro S hmem
  have h1 := size_lt_mod S
  have h2 := memCard_whole hmem
  exact ⟨h1, h2, by omega⟩

/-- Witness for C10 on `{[0, u32::MAX]}`. -/
theorem C10_witness :
    ((Interval.whole ∈ ([Interval.whole] : List Interval)) ∧
      Interval.range_size Interval.whole = 0) ∧
    (IntervalSet.size ⟨[Interval.whole]⟩ < U32MOD ∧
      memCard (IntervalSet.mk [Interval.whole]).intervals = U32MOD ∧
      IntervalSet.size ⟨[Interval.whole]⟩
        ≠ memCard (IntervalSet.mk [Interval.whole]).intervals) :=
  ⟨⟨by decide, by decide⟩,
    C10_range_size_wrap.2.2 ⟨[Interval.whole]⟩ (by decide)⟩

end ProcSet
